import Mathlib

/-!
# Verification of the sitemap-parser crate (`src/robots.rs`, `src/sitemap.rs`, `src/parser.rs`)

This file is a shallow embedding of the pure logic of the sitemap-parser
repository into Lean 4, together with theorems settling the specified
properties of its components.

Modelling conventions, stated once here and referenced below:

* Rust strings are modelled by Lean `String` / `List Char`.  The Rust code
  indexes strings by UTF-8 *byte* offsets; the character-level model is exact
  whenever the relevant indices fall on ASCII text, which is the case for all
  the string patterns the code searches for (`"<loc>"`, `"sitemap:"`, …).
  The one place where byte-level behaviour is observable — the fallback
  scanner's 100-byte look-behind window, which can panic on a non-boundary
  byte index — is modelled separately at the byte level (`parseFallbackBytes`).
* The external `url` crate (`url::Url::parse` / `join`) is not part of this
  repository; `parseChars` / `urlJoin` below model the subset of its behaviour
  that the repository exercises for `http`/`https` URLs
  (scheme `://` host `:port` path `?query` `#fragment`, default ports elided,
  empty host rejected).  Userinfo and IPv6 host brackets are not modelled;
  no claim below depends on them.
* `HashSet<String>` is modelled by `Finset String`; `Vec<String>` by
  `List String`.
-/

namespace SitemapParser

/-- One decimal digit character, `'0' + d`.  Used to model Rust's decimal
formatting of a `u16` port via `format!(":{}", port)`. -/
def digitChar (d : Nat) : Char := Char.ofNat (48 + d)

/-- Numeric value of a list of decimal digit characters (most significant
first), as the `url` crate computes a port number from its digits. -/
def digitsToNat (l : List Char) : Nat :=
  l.foldl (fun a c => 10 * a + (c.toNat - 48)) 0

/-- Fuelled decimal printer (fuel first): prints `n` in decimal before `acc`.
The fuel is always sufficient at `n + 1`; see `natToChars`. -/
def natToCharsCore : Nat → Nat → List Char → List Char
  | 0, _, acc => acc
  | fuel + 1, n, acc =>
    if n < 10 then digitChar n :: acc
    else natToCharsCore fuel (n / 10) (digitChar (n % 10) :: acc)

/-- Decimal representation of a natural number, as Rust's `format!("{}", n)`
prints an unsigned integer. -/
def natToChars (n : Nat) : List Char := natToCharsCore (n + 1) n []

/-- Reference decimal printer used only in proofs (defined by well-founded
recursion, so it does not need to evaluate). -/
def natDigs (n : Nat) : List Char :=
  if _h : n < 10 then [digitChar n]
  else natDigs (n / 10) ++ [digitChar (n % 10)]
termination_by n
decreasing_by exact Nat.div_lt_self (by omega) (by omega)

theorem natToCharsCore_eq_natDigs (fuel : Nat) :
    ∀ n acc, n < fuel → natToCharsCore fuel n acc = natDigs n ++ acc := by
  induction fuel with
  | zero => intro n acc h; omega
  | succ fuel ih =>
    intro n acc h
    rw [natToCharsCore]
    by_cases h10 : n < 10
    · rw [if_pos h10, natDigs, dif_pos h10]; rfl
    · rw [if_neg h10, ih (n / 10) _ (by omega)]
      conv_rhs => rw [natDigs, dif_neg h10]
      rw [List.append_assoc]
      rfl

theorem natToChars_eq_natDigs (n : Nat) : natToChars n = natDigs n := by
  rw [natToChars, natToCharsCore_eq_natDigs (n + 1) n [] (Nat.lt_succ_self n),
    List.append_nil]

theorem digitChar_toNat {d : Nat} (h : d < 10) : (digitChar d).toNat = 48 + d := by
  interval_cases d <;> rfl

theorem digitChar_isDigit {d : Nat} (h : d < 10) : (digitChar d).isDigit = true := by
  interval_cases d <;> rfl

theorem natDigs_ne_nil (n : Nat) : natDigs n ≠ [] := by
  rw [natDigs]
  split
  · simp
  · simp

theorem natDigs_all_digit (n : Nat) : ∀ c ∈ natDigs n, c.isDigit = true := by
  induction n using Nat.strong_induction_on with
  | _ n ih =>
    rw [natDigs]
    split
    · next h => intro c hc; simp at hc; subst hc; exact digitChar_isDigit h
    · next h =>
      intro c hc
      rcases List.mem_append.mp hc with h1 | h2
      · exact ih (n / 10) (Nat.div_lt_self (by omega) (by omega)) c h1
      · simp at h2; subst h2; exact digitChar_isDigit (Nat.mod_lt _ (by omega))

theorem digitsToNat_natDigs (n : Nat) : digitsToNat (natDigs n) = n := by
  induction n using Nat.strong_induction_on with
  | _ n ih =>
    rw [natDigs]
    split
    · next h =>
      simp only [digitsToNat, List.foldl_cons, List.foldl_nil]
      rw [digitChar_toNat h]
      omega
    · next h =>
      simp only [digitsToNat, List.foldl_append, List.foldl_cons, List.foldl_nil]
      have := ih (n / 10) (Nat.div_lt_self (by omega) (by omega))
      simp only [digitsToNat] at this
      rw [this, digitChar_toNat (Nat.mod_lt _ (by omega))]
      omega

theorem isDigit_toNat {c : Char} (h : c.isDigit = true) :
    48 ≤ c.toNat ∧ c.toNat ≤ 57 := by
  simp [Char.isDigit, decide_eq_true_eq] at h
  exact ⟨h.1, h.2⟩

/-! ## Model of the external `url` crate (`url::Url`), restricted to http/https -/

/-- Components of a parsed absolute http(s) URL, as the `url` crate exposes
them to this repository: `scheme()` (here a flag `https`), `host_str()`,
`port()` (`none` when absent or equal to the scheme's default port),
`path()` (always beginning with `/`; `"/"` when the input had none), and
`query()`. -/
structure UrlParts where
  https : Bool
  host : List Char
  port : Option Nat
  path : List Char
  query : Option (List Char)
  deriving Repr, DecidableEq

/-- Characters that end the host component. -/
def notHostDelim (c : Char) : Bool := !(c == ':' || c == '/' || c == '?' || c == '#')

/-- Characters that may appear in the port component. -/
def notPortEnd (c : Char) : Bool := !(c == '/' || c == '?' || c == '#')

/-- Characters that may appear in the path component. -/
def notPathEnd (c : Char) : Bool := !(c == '?' || c == '#')

/-- The scheme's default port is elided by the `url` crate's `port()`. -/
def dropDefaultPort (https : Bool) (v : Nat) : Option Nat :=
  if (https && v == 443) || (!https && v == 80) then none else some v

/-- Split the remainder after host and port into path, query (fragment
dropped), mirroring the `url` crate's component accessors. -/
def mkParts (https : Bool) (host : List Char) (port : Option Nat)
    (r2 : List Char) : UrlParts :=
  let pathRaw := r2.takeWhile notPathEnd
  let r3 := r2.drop pathRaw.length
  { https := https, host := host, port := port,
    path := if pathRaw.isEmpty then ['/'] else pathRaw,
    query := if r3.head? = some '?' then
        some (r3.tail.takeWhile (fun c => !(c == '#')))
      else none }

/-- Parse everything after `scheme://`: host (must be nonempty, else the
crate reports `EmptyHost`), optional `:port` (digits, `< 65536`, else
`InvalidPort`), path, query. -/
def parseUrlCore (https : Bool) (l : List Char) : Option UrlParts :=
  let host := l.takeWhile notHostDelim
  if host.isEmpty then none
  else
    let r1 := l.drop host.length
    if r1.head? = some ':' then
      let pr := r1.tail
      let ps := pr.takeWhile notPortEnd
      let r2 := pr.drop ps.length
      if ps.isEmpty then some (mkParts https host none r2)
      else if ps.all Char.isDigit && decide (digitsToNat ps < 65536) then
        some (mkParts https host (dropDefaultPort https (digitsToNat ps)) r2)
      else none
    else some (mkParts https host none r1)

/-- `url::Url::parse`, modelled for `http://` / `https://` inputs (all the
repository ever parses successfully; other schemes are out of the model's
scope and are rejected). -/
def parseChars : List Char → Option UrlParts
  | 'h' :: 't' :: 't' :: 'p' :: 's' :: ':' :: '/' :: '/' :: rest => parseUrlCore true rest
  | 'h' :: 't' :: 't' :: 'p' :: ':' :: '/' :: '/' :: rest => parseUrlCore false rest
  | _ => none

/-- String-level entry point for `url::Url::parse`. -/
def parseUrl (s : String) : Option UrlParts := parseChars s.data

def schemeChars (https : Bool) : List Char :=
  if https then "https://".data else "http://".data

/-- Serialisation of the optional port (`:p` or nothing). -/
def portEnc : Option Nat → List Char
  | some p => ':' :: natToChars p
  | none => []

/-- Serialisation of the optional query (`?q` or nothing). -/
def queryEnc : Option (List Char) → List Char
  | some q => '?' :: q
  | none => []

/-- `scheme://host[:port]` — the serialisation of a URL's origin, as the
`url` crate prints it. -/
def urlOrigin (u : UrlParts) : List Char :=
  schemeChars u.https ++ u.host ++ portEnc u.port

/-- The base path's directory: everything up to and including the last `/`. -/
def dirOf (path : List Char) : List Char :=
  (path.reverse.dropWhile (fun c => !(c == '/'))).reverse

/-- `url::Url::join(ref).to_string()`, modelled for the two reference shapes
the repository produces: root-relative references (`/…`) resolve against the
origin, other relative references against the base path's directory.
(The crate's `join` is total on these shapes for a parsed http(s) base.) -/
def urlJoin (u : UrlParts) (ref : List Char) : List Char :=
  if ref.head? = some '/' then urlOrigin u ++ ref
  else urlOrigin u ++ dirOf u.path ++ ref

/-! ## `RustSitemapParser::normalize_url` (`src/parser.rs` lines 67–96) -/

/-- `normalized.starts_with("http://") || normalized.starts_with("https://")`. -/
def hasHttpScheme (l : List Char) : Bool :=
  "http://".data.isPrefixOf l || "https://".data.isPrefixOf l

/-- Rebuild the normalized URL exactly as `normalize_url` does:
`format!("{}://{}", scheme, host)`, then `:port` if `parsed.port()` is
`Some`, then the path (`/` when the parsed path is `/` or empty), then
`?query` if present.  The fragment was dropped by never being appended. -/
def normalizeBuild (u : UrlParts) : List Char :=
  schemeChars u.https ++ u.host ++ portEnc u.port ++
    (if u.path = ['/'] || u.path.isEmpty then ['/'] else u.path) ++
    queryEnc u.query

/-- `normalize_url` (`src/parser.rs` lines 67–96) at the character level:
prepend `https://` when no scheme is present, parse, and rebuild; `none`
models the `Err` return for unparsable input (`InvalidURL`). -/
def normalizeCore (l : List Char) : Option (List Char) :=
  let n := if hasHttpScheme l then l else "https://".data ++ l
  (parseChars n).map normalizeBuild

/-- `RustSitemapParser::normalize_url`. -/
def normalize_url (s : String) : Option String :=
  (normalizeCore s.data).map String.mk

/-! ### Generic list helpers for the round-trip proofs -/

theorem takeWhile_append_all {α : Type} {p : α → Bool} {a b : List α}
    (ha : ∀ c ∈ a, p c = true) (hb : ∀ c, b.head? = some c → p c = false) :
    (a ++ b).takeWhile p = a := by
  induction a with
  | nil =>
    cases b with
    | nil => rfl
    | cons c t => simp [List.takeWhile_cons, hb c rfl]
  | cons x xs ih =>
    have hx : p x = true := ha x (List.mem_cons_self x xs)
    simp only [List.cons_append, List.takeWhile_cons, hx, if_true]
    rw [ih (fun c hc => ha c (List.mem_cons_of_mem x hc))]

theorem mem_of_takeWhile {α : Type} {p : α → Bool} {l : List α} {x : α}
    (h : x ∈ l.takeWhile p) : p x = true := by
  induction l with
  | nil => simp [List.takeWhile] at h
  | cons a t ih =>
    rw [List.takeWhile_cons] at h
    by_cases hp : p a = true
    · rw [if_pos hp] at h
      rcases List.mem_cons.mp h with rfl | h2
      · exact hp
      · exact ih h2
    · rw [if_neg hp] at h; cases h

theorem head_of_dropWhile {α : Type} {p : α → Bool} {l : List α} {c : α}
    (h : (l.dropWhile p).head? = some c) : p c = false := by
  induction l with
  | nil => simp [List.dropWhile] at h
  | cons a t ih =>
    rw [List.dropWhile_cons] at h
    by_cases hp : p a = true
    · rw [if_pos hp] at h; exact ih h
    · rw [if_neg hp] at h
      simp only [List.head?_cons, Option.some.injEq] at h
      subst h
      exact Bool.eq_false_iff.mpr hp

theorem drop_length_takeWhile {α : Type} (p : α → Bool) (l : List α) :
    l.drop (l.takeWhile p).length = l.dropWhile p := by
  induction l with
  | nil => rfl
  | cons a t ih =>
    rw [List.takeWhile_cons, List.dropWhile_cons]
    by_cases hp : p a = true
    · simpa [hp] using ih
    · simp [hp]

/-! ### Well-formedness of parsed URLs and the parse/rebuild round trip -/

/-- The invariants the `url` crate guarantees for the components of a
successfully parsed http(s) URL. -/
def UrlWf (u : UrlParts) : Prop :=
  u.host ≠ [] ∧ (∀ c ∈ u.host, notHostDelim c = true) ∧
  (∀ p, u.port = some p → p < 65536 ∧ dropDefaultPort u.https p = some p) ∧
  u.path.head? = some '/' ∧ (∀ c ∈ u.path, notPathEnd c = true) ∧
  (∀ q, u.query = some q → ∀ c ∈ q, (c == '#') = false)

theorem mkParts_wf {https : Bool} {host : List Char} {port : Option Nat}
    {r2 : List Char}
    (hhost : host ≠ []) (hhostc : ∀ c ∈ host, notHostDelim c = true)
    (hport : ∀ p, port = some p → p < 65536 ∧ dropDefaultPort https p = some p)
    (hr2 : ∀ c, r2.head? = some c → c = '/' ∨ c = '?' ∨ c = '#') :
    UrlWf (mkParts https host port r2) := by
  unfold mkParts UrlWf
  refine ⟨hhost, hhostc, hport, ?_, ?_, ?_⟩
  · -- path head is '/'
    simp only
    by_cases hE : (r2.takeWhile notPathEnd).isEmpty = true
    · simp [hE]
    · rw [if_neg (by simpa using hE)]
      cases hR : r2.takeWhile notPathEnd with
      | nil => simp [hR] at hE
      | cons c t =>
        have hc : c ∈ r2.takeWhile notPathEnd := by rw [hR]; exact List.mem_cons_self _ _
        have hc2 : notPathEnd c = true := mem_of_takeWhile hc
        have hhead : r2.head? = some c := by
          cases r2 with
          | nil => simp [List.takeWhile] at hR
          | cons a t2 =>
            rw [List.takeWhile_cons] at hR
            by_cases hp : notPathEnd a = true
            · rw [if_pos hp] at hR
              simp only [List.cons.injEq] at hR
              simp [hR.1]
            · rw [if_neg hp] at hR; cases hR
        rcases hr2 c hhead with rfl | rfl | rfl
        · simp
        · simp [notPathEnd] at hc2
        · simp [notPathEnd] at hc2
  · -- path chars avoid '?' and '#'
    simp only
    intro c hc
    by_cases hE : (r2.takeWhile notPathEnd).isEmpty = true
    · rw [if_pos hE] at hc
      simp at hc
      subst hc; rfl
    · rw [if_neg (by simpa using hE)] at hc
      exact mem_of_takeWhile hc
  · -- query chars avoid '#'
    simp only
    intro q hq c hc
    by_cases hh : (r2.drop (r2.takeWhile notPathEnd).length).head? = some '?'
    · rw [if_pos hh, Option.some.injEq] at hq
      subst hq
      simpa using mem_of_takeWhile hc
    · rw [if_neg hh] at hq; cases hq

theorem notPortEnd_false_cases {c : Char} (h : notPortEnd c = false) :
    c = '/' ∨ c = '?' ∨ c = '#' := by
  simp [notPortEnd] at h
  tauto

theorem notHostDelim_false_cases {c : Char} (h : notHostDelim c = false) :
    c = ':' ∨ c = '/' ∨ c = '?' ∨ c = '#' := by
  simp [notHostDelim] at h
  tauto

theorem wf_of_parseUrlCore {https : Bool} {l : List Char} {u : UrlParts}
    (h : parseUrlCore https l = some u) : UrlWf u := by
  simp only [parseUrlCore] at h
  have hdrop : l.drop (l.takeWhile notHostDelim).length = l.dropWhile notHostDelim :=
    drop_length_takeWhile _ _
  by_cases hE : (l.takeWhile notHostDelim).isEmpty = true
  · rw [if_pos hE] at h; cases h
  · rw [if_neg hE] at h
    have hhost : l.takeWhile notHostDelim ≠ [] := by
      intro he; rw [he] at hE; exact hE rfl
    have hhostc : ∀ c ∈ l.takeWhile notHostDelim, notHostDelim c = true :=
      fun c hc => mem_of_takeWhile hc
    by_cases hcolon : (l.drop (l.takeWhile notHostDelim).length).head? = some ':'
    · rw [if_pos hcolon] at h
      have hr2 : ∀ c,
          (((l.drop (l.takeWhile notHostDelim).length).tail.drop
            ((l.drop (l.takeWhile notHostDelim).length).tail.takeWhile notPortEnd).length).head? =
            some c) → c = '/' ∨ c = '?' ∨ c = '#' := by
        intro c hc
        rw [drop_length_takeWhile] at hc
        exact notPortEnd_false_cases (head_of_dropWhile hc)
      by_cases hPE : ((l.drop (l.takeWhile notHostDelim).length).tail.takeWhile
          notPortEnd).isEmpty = true
      · rw [if_pos hPE, Option.some.injEq] at h
        subst h
        exact mkParts_wf hhost hhostc (fun p hp => by cases hp) hr2
      · rw [if_neg hPE] at h
        by_cases hD : (((l.drop (l.takeWhile notHostDelim).length).tail.takeWhile
            notPortEnd).all Char.isDigit &&
            decide (digitsToNat ((l.drop (l.takeWhile notHostDelim).length).tail.takeWhile
              notPortEnd) < 65536)) = true
        · rw [if_pos hD, Option.some.injEq] at h
          subst h
          refine mkParts_wf hhost hhostc ?_ hr2
          intro p hp
          have hlt : digitsToNat ((l.drop (l.takeWhile notHostDelim).length).tail.takeWhile
              notPortEnd) < 65536 := by
            have := (Bool.and_eq_true _ _).mp hD
            exact of_decide_eq_true this.2
          rw [dropDefaultPort] at hp
          split at hp
          · cases hp
          · next hcond =>
            rw [Option.some.injEq] at hp
            subst hp
            exact ⟨hlt, by rw [dropDefaultPort, if_neg hcond]⟩
        · rw [if_neg hD] at h; cases h
    · rw [if_neg hcolon, Option.some.injEq] at h
      subst h
      refine mkParts_wf hhost hhostc (fun p hp => by cases hp) ?_
      intro c hc
      have hc' := hc
      rw [hdrop] at hc'
      rcases notHostDelim_false_cases (head_of_dropWhile hc') with rfl | hcs
      · exact absurd hc hcolon
      · exact hcs

theorem wf_of_parseChars {l : List Char} {u : UrlParts}
    (h : parseChars l = some u) : UrlWf u := by
  unfold parseChars at h
  split at h
  · exact wf_of_parseUrlCore h
  · exact wf_of_parseUrlCore h
  · cases h

theorem takeWhile_eq_self_of_all {α : Type} {p : α → Bool} {l : List α}
    (h : ∀ c ∈ l, p c = true) : l.takeWhile p = l := by
  have := takeWhile_append_all (b := []) h (fun c hc => by cases hc)
  simpa using this

theorem isDigit_notPortEnd {c : Char} (h : c.isDigit = true) : notPortEnd c = true := by
  obtain ⟨h1, h2⟩ := isDigit_toNat h
  have e1 : (c == '/') = false :=
    beq_eq_false_iff_ne.mpr (by rintro rfl; exact absurd h1 (by decide))
  have e2 : (c == '?') = false :=
    beq_eq_false_iff_ne.mpr (by rintro rfl; exact absurd h2 (by decide))
  have e3 : (c == '#') = false :=
    beq_eq_false_iff_ne.mpr (by rintro rfl; exact absurd h1 (by decide))
  simp [notPortEnd, e1, e2, e3]

theorem isPrefixOf_append_self {α : Type} [BEq α] [LawfulBEq α] (a b : List α) :
    a.isPrefixOf (a ++ b) = true := by
  induction a with
  | nil => cases b <;> rfl
  | cons x xs ih => simp [List.isPrefixOf, ih]

theorem mkParts_roundtrip {u : UrlParts} (hpathH : u.path.head? = some '/')
    (hpathc : ∀ c ∈ u.path, notPathEnd c = true)
    (hquery : ∀ q, u.query = some q → ∀ c ∈ q, (c == '#') = false) :
    mkParts u.https u.host u.port (u.path ++ queryEnc u.query) = u := by
  obtain ⟨ph, pt, hpe⟩ : ∃ ph pt, u.path = ph :: pt := by
    cases hp : u.path with
    | nil => rw [hp] at hpathH; cases hpathH
    | cons a t => exact ⟨a, t, rfl⟩
  have htake : (u.path ++ queryEnc u.query).takeWhile notPathEnd = u.path := by
    apply takeWhile_append_all hpathc
    intro c hc
    cases hq : u.query with
    | none => rw [hq] at hc; cases hc
    | some q =>
      rw [hq] at hc
      simp only [queryEnc, List.head?_cons, Option.some.injEq] at hc
      subst hc; rfl
  have hne : u.path.isEmpty = false := by rw [hpe]; rfl
  unfold mkParts
  simp only [htake, List.drop_left, hne, Bool.false_eq_true, if_false]
  cases hq : u.query with
  | none =>
    simp only [queryEnc, List.head?_nil]
    rw [if_neg (by simp)]
    rw [← hq]
  | some q =>
    simp only [queryEnc, List.head?_cons, List.tail_cons, Option.some.injEq]
    rw [if_pos trivial]
    rw [takeWhile_eq_self_of_all (by
      intro c hc
      have := hquery q hq c hc
      simp [this])]
    rw [← hq]

theorem parseUrlCore_roundtrip {u : UrlParts} (h : UrlWf u) :
    parseUrlCore u.https
      (u.host ++ (portEnc u.port ++ (u.path ++ queryEnc u.query))) = some u := by
  obtain ⟨hhost, hhostc, hport, hpathH, hpathc, hquery⟩ := h
  obtain ⟨pt, hpe⟩ : ∃ pt, u.path = '/' :: pt := by
    cases hp : u.path with
    | nil => rw [hp] at hpathH; cases hpathH
    | cons a t =>
      rw [hp] at hpathH
      simp only [List.head?_cons, Option.some.injEq] at hpathH
      exact ⟨t, by rw [hpathH]⟩
  have hheadPath : ∀ c, (u.path ++ queryEnc u.query).head? = some c → c = '/' := by
    intro c hc
    rw [hpe] at hc
    simp only [List.cons_append, List.head?_cons, Option.some.injEq] at hc
    exact hc.symm
  have hheadRest : ∀ c,
      (portEnc u.port ++ (u.path ++ queryEnc u.query)).head? = some c →
      notHostDelim c = false := by
    intro c hc
    cases hp : u.port with
    | some p =>
      rw [hp] at hc
      simp only [portEnc, List.cons_append, List.head?_cons, Option.some.injEq] at hc
      subst hc; rfl
    | none =>
      rw [hp] at hc
      simp only [portEnc, List.nil_append] at hc
      rw [hheadPath c hc]; rfl
  have htake : (u.host ++ (portEnc u.port ++ (u.path ++ queryEnc u.query))).takeWhile
      notHostDelim = u.host := takeWhile_append_all hhostc hheadRest
  have hhe : u.host.isEmpty = false := by
    cases hh : u.host with
    | nil => exact absurd hh hhost
    | cons a t => rfl
  simp only [parseUrlCore, htake, List.drop_left, hhe, Bool.false_eq_true, if_false]
  cases hp : u.port with
  | none =>
    simp only [portEnc, List.nil_append]
    rw [if_neg (by
      rw [hpe]
      simp)]
    rw [← hp]
    exact congrArg some (mkParts_roundtrip hpathH hpathc hquery)
  | some p =>
    simp only [portEnc, List.cons_append, List.head?_cons, Option.some.injEq]
    rw [if_pos trivial]
    simp only [List.tail_cons]
    have hdig : ∀ c ∈ natToChars p, c.isDigit = true := by
      intro c hc
      rw [natToChars_eq_natDigs] at hc
      exact natDigs_all_digit _ c hc
    have htakeP : (natToChars p ++ (u.path ++ queryEnc u.query)).takeWhile notPortEnd =
        natToChars p := by
      apply takeWhile_append_all (fun c hc => isDigit_notPortEnd (hdig c hc))
      intro c hc
      rw [hheadPath c hc]; rfl
    simp only [htakeP, List.drop_left]
    have hnn : (natToChars p).isEmpty = false := by
      rw [natToChars_eq_natDigs]
      cases hh : natDigs p with
      | nil => exact absurd hh (natDigs_ne_nil p)
      | cons a t => rfl
    rw [hnn]
    simp only [Bool.false_eq_true, if_false]
    have hall : (natToChars p).all Char.isDigit = true := List.all_eq_true.mpr hdig
    have hval : digitsToNat (natToChars p) = p := by
      rw [natToChars_eq_natDigs]; exact digitsToNat_natDigs p
    obtain ⟨hlt, hdd⟩ := hport p hp
    rw [if_pos (by rw [hall, hval]; simpa using hlt)]
    rw [hval, hdd, ← hp]
    exact congrArg some (mkParts_roundtrip hpathH hpathc hquery)

theorem parseChars_https (x : List Char) :
    parseChars ("https://".data ++ x) = parseUrlCore true x := rfl

theorem parseChars_http (x : List Char) :
    parseChars ("http://".data ++ x) = parseUrlCore false x := rfl

theorem normalizeBuild_eq {u : UrlParts} (hpathH : u.path.head? = some '/') :
    normalizeBuild u =
      schemeChars u.https ++ (u.host ++ (portEnc u.port ++ (u.path ++ queryEnc u.query))) := by
  have hpath_out : (if u.path = ['/'] || u.path.isEmpty then ['/'] else u.path) = u.path := by
    by_cases h1 : u.path = ['/']
    · rw [h1]; simp
    · have h2 : u.path.isEmpty = false := by
        cases hp : u.path with
        | nil => rw [hp] at hpathH; cases hpathH
        | cons a t => rfl
      simp [h1, h2]
  unfold normalizeBuild
  rw [hpath_out]
  simp [List.append_assoc]

theorem hasHttpScheme_build {u : UrlParts} (hpathH : u.path.head? = some '/') :
    hasHttpScheme (normalizeBuild u) = true := by
  rw [normalizeBuild_eq hpathH]
  unfold hasHttpScheme schemeChars
  cases u.https <;> simp [isPrefixOf_append_self]

theorem parseChars_normalizeBuild {u : UrlParts} (hwf : UrlWf u) :
    parseChars (normalizeBuild u) = some u := by
  rw [normalizeBuild_eq hwf.2.2.2.1]
  have hrt := parseUrlCore_roundtrip hwf
  cases hH : u.https with
  | true =>
    rw [hH] at hrt
    simpa only [schemeChars, if_true, parseChars_https] using hrt
  | false =>
    rw [hH] at hrt
    simpa only [schemeChars, Bool.false_eq_true, if_false, parseChars_http] using hrt

/-- **C9.** URL normalization is idempotent: any string in the image of
`normalize_url` normalizes to itself. -/
theorem normalize_url_idempotent (s t : String) (h : normalize_url s = some t) :
    normalize_url t = some t := by
  simp only [normalize_url, normalizeCore] at h
  cases hp : parseChars (if hasHttpScheme s.data = true then s.data
      else "https://".data ++ s.data) with
  | none => rw [hp] at h; cases h
  | some u =>
    rw [hp] at h
    simp only [Option.map_some', Option.some.injEq] at h
    subst h
    have hwf := wf_of_parseChars hp
    have hdata : (String.mk (normalizeBuild u)).data = normalizeBuild u := rfl
    unfold normalize_url
    rw [hdata]
    simp only [normalizeCore]
    rw [hasHttpScheme_build hwf.2.2.2.1, if_pos rfl,
      parseChars_normalizeBuild hwf]
    rfl

/-- Witness for C9 at a concrete input: `"example.com"` normalizes to
`"https://example.com/"`, which is a fixed point of `normalize_url`. -/
theorem normalize_url_idempotent_witness :
    normalize_url "example.com" = some "https://example.com/" ∧
    normalize_url "https://example.com/" = some "https://example.com/" := by
  refine ⟨by decide, ?_⟩
  exact normalize_url_idempotent "example.com" "https://example.com/" (by decide)

/-! ## String helpers shared by the models

Rust's `str` operations are modelled at the character level (exact for ASCII
text; see the module comment).  They are defined here rather than borrowed
from `String`'s library so that their semantics — which the theorems below
quantify over — are explicit. -/

/-- `str::starts_with(pat)`. -/
def startsWithLit (s pat : String) : Bool := pat.data.isPrefixOf s.data

/-- The whitespace recognised by the model of `str::trim` (Rust trims
Unicode whitespace; the model covers the ASCII subset). -/
def isWsChar (c : Char) : Bool := c == ' ' || c == '\t' || c == '\n' || c == '\r'

/-- `str::trim` at the character level. -/
def trimChars (l : List Char) : List Char :=
  ((l.dropWhile isWsChar).reverse.dropWhile isWsChar).reverse

/-- `str::trim`. -/
def strTrim (s : String) : String := String.mk (trimChars s.data)

/-- `str::to_lowercase`, modelled character-wise (exact for ASCII input;
Rust's full Unicode lowercasing coincides with it there). -/
def strToLower (s : String) : String := String.mk (s.data.map Char.toLower)

/-- `str::get(n..)` for a character-boundary index, i.e. dropping the first
`n` characters (the code only applies it after an ASCII prefix test, where
bytes and characters coincide). -/
def strDrop (s : String) (n : Nat) : String := String.mk (s.data.drop n)

/-- `str::trim_end_matches('/')`: remove all trailing slashes. -/
def trimEndSlashes (s : String) : String :=
  String.mk ((s.data.reverse.dropWhile (fun c => c == '/')).reverse)

/-- Split on `'\n'`, keeping empty segments. -/
def splitNl : List Char → List (List Char)
  | [] => [[]]
  | c :: t =>
    if c = '\n' then [] :: splitNl t
    else
      match splitNl t with
      | [] => [[c]]
      | h :: r => (c :: h) :: r

/-- Strip one trailing `'\r'` (Rust's `str::lines` treats `\r\n` as a
terminator). -/
def stripCr (l : List Char) : List Char :=
  if l.getLast? = some '\r' then l.dropLast else l

/-- `str::lines`: split on `'\n'`, strip a trailing `'\r'` from each line,
and produce no trailing empty line for terminator-final input. -/
def rustLines (s : String) : List String :=
  let parts := splitNl s.data
  let parts := if parts.getLast? = some [] then parts.dropLast else parts
  parts.map (fun l => String.mk (stripCr l))

/-- "Absolute URL": begins with `http://` or `https://`. -/
def isAbsoluteUrl (s : String) : Bool :=
  startsWithLit s "http://" || startsWithLit s "https://"

/-! ## `parse_robots_txt` (`src/robots.rs` lines 4–45) -/

/-- Resolution of one directive value, exactly as `parse_robots_txt` does it:
values starting with `/` are joined against a parsed base (passed through
verbatim when the base does not parse); absolute http(s) values pass through;
all other values are joined as relative references (with the
`format!("{}/{}", base.trim_end_matches('/'), value)` fallback when the base
does not parse).  The `url` crate's `join` is modelled as total (see
`urlJoin`), so its error fallbacks are not reachable in the model. -/
def robotsResolve (v base : String) : String :=
  if startsWithLit v "/" then
    match parseUrl base with
    | some b => String.mk (urlJoin b v.data)
    | none => v
  else if startsWithLit v "http://" || startsWithLit v "https://" then v
  else
    match parseUrl base with
    | some b => String.mk (urlJoin b v.data)
    | none => trimEndSlashes base ++ "/" ++ v

/-- `parse_robots_txt`: scan lines; a trimmed line whose lowercase form
starts with `sitemap:` contributes its value (text after the first 8
characters, trimmed) resolved to a URL, provided the value is nonempty. -/
def parse_robots_txt (content base : String) : List String :=
  (rustLines content).foldl (fun acc line =>
    if startsWithLit (strToLower (strTrim line)) "sitemap:" then
      if (strTrim (strDrop (strTrim line) 8)).data.isEmpty then acc
      else acc ++ [robotsResolve (strTrim (strDrop (strTrim line) 8)) base]
    else acc) []

/-! ### The extractor behaviour as the specification words it (claim C6) -/

/-- The directive value of a line per the claim's words: for a line whose
trimmed, case-folded form starts with `sitemap:`, the text after the 8th
character, trimmed.  (No nonemptiness requirement — that is the point at
which the claim and the code differ.) -/
def robotsClaimLineVal (line : String) : Option String :=
  if startsWithLit (strToLower (strTrim line)) "sitemap:" then
    some (strTrim (strDrop (strTrim line) 8))
  else none

/-- Resolution of a value per the claim's words: absolute http/https values
pass through, values starting with `/` are joined against the base's origin,
all other values are joined as relative references against the base URL.
The claim presupposes a parseable base; for an unparseable one it gives no
rule (the theorem below assumes the base parses, and the counterexample uses
a parseable base). -/
def robotsClaimResolve (v base : String) : String :=
  if startsWithLit v "http://" || startsWithLit v "https://" then v
  else if startsWithLit v "/" then
    match parseUrl base with
    | some b => String.mk (urlOrigin b ++ v.data)
    | none => v
  else
    match parseUrl base with
    | some b => String.mk (urlJoin b v.data)
    | none => v

/-- The extractor's output exactly as claim C6 states it: every
`sitemap:`-line's value, resolved, in file order. -/
def robotsClaimDirectives (content base : String) : List String :=
  ((rustLines content).filterMap robotsClaimLineVal).map
    (fun v => robotsClaimResolve v base)

/-- The amended statement's output: as `robotsClaimDirectives` but skipping
directives whose value is empty. -/
def robotsAmendedDirectives (content base : String) : List String :=
  (((rustLines content).filterMap robotsClaimLineVal).filter
    (fun v => !v.data.isEmpty)).map (fun v => robotsClaimResolve v base)

theorem isPrefixOf_cons_of_ne {α : Type} [BEq α] [LawfulBEq α] {a b : α}
    (h : a ≠ b) (p l : List α) : ((a :: p).isPrefixOf (b :: l)) = false := by
  simp [List.isPrefixOf, h]

theorem singleton_isPrefixOf {α : Type} [BEq α] [LawfulBEq α] {c : α} {l : List α}
    (h : ([c].isPrefixOf l) = true) : ∃ t, l = c :: t := by
  cases l with
  | nil => simp [List.isPrefixOf] at h
  | cons a t =>
    simp [List.isPrefixOf] at h
    exact ⟨t, by rw [h]⟩

/-- Under a parseable base, the code's resolution of one robots value agrees
with the claim's wording of it (the two test the `/` and `http(s)` branches in
the opposite order; they coincide because the branch guards are disjoint). -/
theorem robotsResolve_eq_claim {v base : String} {b : UrlParts}
    (hb : parseUrl base = some b) :
    robotsResolve v base = robotsClaimResolve v base := by
  unfold robotsResolve robotsClaimResolve
  rw [hb]
  by_cases hS : startsWithLit v "/" = true
  · have hS' : (['/'].isPrefixOf v.data) = true := hS
    obtain ⟨t, ht⟩ := singleton_isPrefixOf hS'
    have hH1 : startsWithLit v "http://" = false := by
      show ("http://".data.isPrefixOf v.data) = false
      rw [ht]
      exact isPrefixOf_cons_of_ne (by decide) _ _
    have hH2 : startsWithLit v "https://" = false := by
      show ("https://".data.isPrefixOf v.data) = false
      rw [ht]
      exact isPrefixOf_cons_of_ne (by decide) _ _
    rw [if_pos hS, hH1, hH2]
    simp only [Bool.or_self, Bool.false_eq_true, if_false]
    rw [if_pos hS]
    unfold urlJoin
    rw [ht]
    rw [if_pos (by simp)]
  · rw [if_neg hS]
    by_cases hH : (startsWithLit v "http://" || startsWithLit v "https://") = true
    · rw [if_pos hH, if_pos hH]
    · rw [if_neg hH, if_neg hH, if_neg hS]

theorem robots_fold_aux {base : String} {b : UrlParts} (hb : parseUrl base = some b) :
    ∀ (lines : List String) (acc : List String),
      lines.foldl (fun acc line =>
        if startsWithLit (strToLower (strTrim line)) "sitemap:" then
          if (strTrim (strDrop (strTrim line) 8)).data.isEmpty then acc
          else acc ++ [robotsResolve (strTrim (strDrop (strTrim line) 8)) base]
        else acc) acc
      = acc ++ ((lines.filterMap robotsClaimLineVal).filter
          (fun v => !v.data.isEmpty)).map (fun v => robotsClaimResolve v base) := by
  intro lines
  induction lines with
  | nil => intro acc; simp
  | cons line rest ih =>
    intro acc
    rw [List.foldl_cons, List.filterMap_cons]
    by_cases hL : startsWithLit (strToLower (strTrim line)) "sitemap:" = true
    · rw [robotsClaimLineVal, if_pos hL]
      by_cases hE : (strTrim (strDrop (strTrim line) 8)).data.isEmpty = true
      · simp only [if_pos hL, if_pos hE]
        rw [ih acc, List.filter_cons]
        simp [hE]
      · simp only [if_pos hL, if_neg hE]
        rw [ih (acc ++ [robotsResolve (strTrim (strDrop (strTrim line) 8)) base]),
          List.filter_cons]
        simp only [hE, Bool.not_false, if_true, List.map_cons, List.append_assoc,
          List.singleton_append]
        rw [robotsResolve_eq_claim hb]
    · rw [robotsClaimLineVal, if_neg hL]
      simp only [if_neg hL]
      exact ih acc

/-- **C6 (amended).**  For every robots.txt text and every base URL that
parses as an http(s) URL, the extractor returns exactly the directives from
lines whose trimmed, case-folded form starts with `sitemap:` *and whose
value (the text after the 8th character, trimmed) is nonempty* — each value
resolved to absolute form by the claimed rule — in file order with no
duplicates removed; and text with no `sitemap:` line yields the empty
list. -/
theorem parse_robots_txt_spec (content base : String) (b : UrlParts)
    (hb : parseUrl base = some b) :
    parse_robots_txt content base = robotsAmendedDirectives content base ∧
    ((∀ line ∈ rustLines content,
        startsWithLit (strToLower (strTrim line)) "sitemap:" = false) →
      parse_robots_txt content base = []) := by
  have h1 : parse_robots_txt content base = robotsAmendedDirectives content base := by
    unfold parse_robots_txt robotsAmendedDirectives
    simpa using robots_fold_aux hb (rustLines content) []
  refine ⟨h1, ?_⟩
  intro hno
  rw [h1]
  unfold robotsAmendedDirectives
  have : (rustLines content).filterMap robotsClaimLineVal = [] := by
    rw [List.filterMap_eq_nil_iff]
    intro line hline
    rw [robotsClaimLineVal, if_neg (by rw [hno line hline]; simp)]
  rw [this]
  rfl

/-- Witness for C6 at the specification's own example: absolute and
root-relative values against `https://example.com`. -/
theorem parse_robots_txt_spec_witness :
    parse_robots_txt "Sitemap: https://example.com/sitemap.xml\nSitemap: /other.xml"
        "https://example.com" =
      ["https://example.com/sitemap.xml", "https://example.com/other.xml"] := by
  have h := (parse_robots_txt_spec
    "Sitemap: https://example.com/sitemap.xml\nSitemap: /other.xml"
    "https://example.com"
    ⟨true, "example.com".data, none, ['/'], none⟩ (by decide)).1
  rw [h]
  decide

/-- **C6 (counterexample).**  A line `sitemap:` with an empty value: the code
skips it (`parse_robots_txt` returns `[]`), while the claim's reading of the
extractor produces a directive for it (the empty value resolved against the
base). -/
theorem robots_claim_counterexample :
    parse_robots_txt "sitemap:" "https://example.com" = [] ∧
    robotsClaimDirectives "sitemap:" "https://example.com" =
      ["https://example.com/"] := by
  constructor
  · decide
  · decide

/-! ## Sitemap decoder (`src/sitemap.rs`) -/

/-- `make_absolute_url` (`src/sitemap.rs` lines 137–154): absolute http(s)
values pass through; other values are joined against a parsed base (with the
string-concatenation fallbacks of lines 144 and 151 when the base does not
parse).  The `url` crate's `join` is modelled as total (see `urlJoin`), so
its error path is not reachable in the model and the function is total. -/
def make_absolute_url (url base : String) : String :=
  if startsWithLit url "http://" || startsWithLit url "https://" then url
  else if startsWithLit url "/" then
    match parseUrl base with
    | some b => String.mk (urlJoin b url.data)
    | none => trimEndSlashes base ++ url
  else
    match parseUrl base with
    | some b => String.mk (urlJoin b url.data)
    | none => trimEndSlashes base ++ "/" ++ url

/-- The events `parse_sitemap_xml` consumes from the external quick_xml
reader: start/end tags carry the element's *local* name (`e.local_name()`,
so namespace prefixes are already stripped), text and CDATA carry the
decoded text (with `trim_text(true)` configured on the reader, text events
arrive trimmed; the model does not rely on that).  A malformed document
simply produces a shorter event list, mirroring the `Err(_) => break` arm. -/
inductive XmlEvent where
  | startTag (name : String)
  | endTag (name : String)
  | text (s : String)
  | cdata (s : String)
  deriving Repr, DecidableEq

/-- `SitemapParseResult` (`src/sitemap.rs` lines 6–10): the content-URL set
and the nested-sitemap list. -/
structure SitemapParseResult where
  urls : Finset String
  nested_sitemaps : List String
  deriving DecidableEq

def emptyParseResult : SitemapParseResult := ⟨∅, []⟩

/-- The decoder's streaming state: the four context flags and the
accumulating `<loc>` text buffer, plus the result being built. -/
structure XmlState where
  in_url : Bool
  in_sitemap : Bool
  in_image : Bool
  in_loc : Bool
  current_text : String
  result : SitemapParseResult

def initXmlState : XmlState :=
  { in_url := false, in_sitemap := false, in_image := false, in_loc := false,
    current_text := "", result := emptyParseResult }

/-- The update applied to the result when a `</loc>` closes (lines 49–66):
trim the buffer; skip if empty; push to `nested_sitemaps` (resolved) when
inside `<sitemap>`; insert into `urls` (verbatim) when inside `<url>` and
not inside `<image>`; otherwise discard. -/
def locResultUpdate (base : String) (in_url in_sitemap in_image : Bool)
    (r : SitemapParseResult) (v : String) : SitemapParseResult :=
  if (strTrim v).data.isEmpty then r
  else if in_sitemap then
    { r with nested_sitemaps :=
        r.nested_sitemaps ++ [make_absolute_url (strTrim v) base] }
  else if in_url && !in_image then
    { r with urls := insert (strTrim v) r.urls }
  else r

/-- One step of the streaming decoder (`src/sitemap.rs` lines 25–92). -/
def xmlStep (base : String) (st : XmlState) (e : XmlEvent) : XmlState :=
  match e with
  | .startTag n =>
    if n = "url" then { st with in_url := true }
    else if n = "sitemap" then { st with in_sitemap := true }
    else if n = "image" then { st with in_image := true }
    else if n = "loc" then { st with in_loc := true, current_text := "" }
    else st
  | .endTag n =>
    if n = "url" then { st with in_url := false }
    else if n = "sitemap" then { st with in_sitemap := false }
    else if n = "image" then { st with in_image := false }
    else if n = "loc" then
      if st.in_loc then
        { st with in_loc := false, current_text := "",
                  result := locResultUpdate base st.in_url st.in_sitemap
                    st.in_image st.result st.current_text }
      else st
    else st
  | .text s => if st.in_loc then { st with current_text := st.current_text ++ s } else st
  | .cdata s => if st.in_loc then { st with current_text := st.current_text ++ s } else st

/-- The structured (streaming) pass of `parse_sitemap_xml` over an event
stream. -/
def structuredParse (events : List XmlEvent) (base : String) : SitemapParseResult :=
  (events.foldl (xmlStep base) initXmlState).result

/-! ### The fallback scanner (`src/sitemap.rs` lines 103–134), character level -/

/-- `str::contains(pat)`. -/
def containsSub : List Char → List Char → Bool
  | [], pat => pat.isEmpty
  | c :: t, pat => pat.isPrefixOf (c :: t) || containsSub t pat

/-- `str::find(pat)`: index of the first occurrence. -/
def findSub : List Char → List Char → Option Nat
  | [], pat => if pat.isEmpty then some 0 else none
  | c :: t, pat => if pat.isPrefixOf (c :: t) then some 0 else (findSub t pat).map (· + 1)

/-- The fallback scanner's treatment of one `<loc>…</loc>` match (lines
112–125): trim the enclosed text, skip if empty, then classify by the
look-behind window `ctx`: a window containing an open `<sitemap` tag not yet
closed by `</sitemap>` makes it a nested sitemap reference (resolved to
absolute), anything else a content URL (inserted verbatim). -/
def fallbackClassify (base : String) (ctx url : List Char)
    (acc : SitemapParseResult) : SitemapParseResult :=
  if (trimChars url).isEmpty then acc
  else if containsSub ctx "<sitemap".data && !containsSub ctx "</sitemap>".data then
    { acc with nested_sitemaps := acc.nested_sitemaps ++
        [make_absolute_url (String.mk (trimChars url)) base] }
  else { acc with urls := insert (String.mk (trimChars url)) acc.urls }

/-- The fallback scanner's loop, abstracted to character lists.  `pre` is
the already-consumed prefix of the document (`content[..start]` in the Rust
code, maintained so that the look-behind window `content[(pos-100)..pos]`
can be read off as the last ≤ 100 characters of `pre ++ rest.take i`).  The
`fuel` argument makes the recursion structural; every iteration consumes at
least 11 characters of `rest`, so `rest.length + 1` fuel always suffices
(`parse_fallback` supplies it).

The source indexes by UTF-8 *bytes*, so this abstraction is exact only on
ASCII input, where one byte is one character: on non-ASCII input the code's
window is 100 bytes, not 100 characters, and its slice can panic off a
character boundary.  The byte-accurate model is `parse_fallback_bytes`
below (claims C8 and C10). -/
def fallbackGo (base : String) : Nat → List Char → List Char →
    SitemapParseResult → SitemapParseResult
  | 0, _, _, acc => acc
  | fuel + 1, pre, rest, acc =>
    match findSub rest "<loc>".data with
    | none => acc
    | some i =>
      match findSub (rest.drop (i + 5)) "</loc>".data with
      | none => acc
      | some j =>
        fallbackGo base fuel
          ((pre ++ rest.take i) ++ "<loc>".data ++ (rest.drop (i + 5)).take j ++
            "</loc>".data)
          ((rest.drop (i + 5)).drop (j + 6))
          (fallbackClassify base
            ((pre ++ rest.take i).drop ((pre ++ rest.take i).length - 100))
            ((rest.drop (i + 5)).take j) acc)

/-- `parse_fallback` (`src/sitemap.rs` lines 103–134) at the character
level (exact on ASCII input; see `parse_fallback_bytes` for the
byte-accurate model): scan `content` for literal `<loc>…</loc>` pairs,
classifying each by the window before it.  The result parameter models the
`&mut result` the Rust function receives. -/
def parse_fallback (content base : String) (r : SitemapParseResult) :
    SitemapParseResult :=
  fallbackGo base (content.data.length + 1) [] content.data r

/-- `parse_sitemap_xml` (`src/sitemap.rs` lines 13–100): the structured pass
over the quick_xml events, falling back to the lenient scanner exactly when
the structured result is empty on both components. -/
def parse_sitemap_xml (events : List XmlEvent) (content base : String) :
    SitemapParseResult :=
  if (structuredParse events base).urls = ∅ ∧
      (structuredParse events base).nested_sitemaps = [] then
    parse_fallback content base (structuredParse events base)
  else structuredParse events base

/-! ### Event streams of well-formed documents (for C5 and C7) -/

/-- A child of a `<url>` element that the decoder can react to: a direct
`<loc>` or an `<image>` extension block containing `<loc>` entries. -/
inductive UrlItem where
  | locItem (v : String)
  | imageItem (locs : List String)

/-- Events of `<loc>v</loc>`. -/
def locEvents (v : String) : List XmlEvent :=
  [.startTag "loc", .text v, .endTag "loc"]

def urlItemEvents : UrlItem → List XmlEvent
  | .locItem v => locEvents v
  | .imageItem ls => .startTag "image" :: (ls.map locEvents).flatten ++ [.endTag "image"]

/-- Events of one `<url>…</url>` entry. -/
def urlEntryEvents (items : List UrlItem) : List XmlEvent :=
  .startTag "url" :: (items.map urlItemEvents).flatten ++ [.endTag "url"]

/-- Events of a `urlset` document. -/
def urlsetEvents (doc : List (List UrlItem)) : List XmlEvent :=
  .startTag "urlset" :: (doc.map urlEntryEvents).flatten ++ [.endTag "urlset"]

/-- Events of one `<sitemap><loc>v</loc></sitemap>` entry. -/
def indexEntryEvents (v : String) : List XmlEvent :=
  .startTag "sitemap" :: locEvents v ++ [.endTag "sitemap"]

/-- Events of a `sitemapindex` document. -/
def indexEvents (vs : List String) : List XmlEvent :=
  .startTag "sitemapindex" :: (vs.map indexEntryEvents).flatten ++
    [.endTag "sitemapindex"]

/-- The values of the direct (non-image) `<loc>` children, in document
order. -/
def directLocs (doc : List (List UrlItem)) : List String :=
  (doc.map (fun items => items.filterMap (fun it =>
    match it with
    | .locItem v => some v
    | .imageItem _ => none))).flatten

/-- The values of `<loc>` entries nested under `<image>` elements. -/
def imageLocs (doc : List (List UrlItem)) : List String :=
  (doc.map (fun items => (items.map (fun it =>
    match it with
    | .locItem _ => []
    | .imageItem ls => ls)).flatten)).flatten

/-- A loc value as it appears in a schema-conforming document: a URL, hence
nonempty and free of surrounding whitespace (so trimming is the
identity). -/
def GoodVal (v : String) : Prop := trimChars v.data = v.data ∧ v.data ≠ []

instance (v : String) : Decidable (GoodVal v) := by
  unfold GoodVal
  exact instDecidableAnd

/-- Canonical decoder state between elements: flags as given, no open
`<loc>`, empty buffer. -/
def stBase (u s i : Bool) (r : SitemapParseResult) : XmlState :=
  { in_url := u, in_sitemap := s, in_image := i, in_loc := false,
    current_text := "", result := r }

theorem strTrim_good {v : String} (h : GoodVal v) : strTrim v = v := by
  show String.mk (trimChars v.data) = v
  rw [h.1]

theorem strTrim_good_ne {v : String} (h : GoodVal v) :
    (strTrim v).data.isEmpty = false := by
  rw [strTrim_good h]
  cases hv : v.data with
  | nil => exact absurd hv h.2
  | cons a t => rfl

theorem fold_locEvents (base : String) (u s i : Bool) (r : SitemapParseResult)
    (v : String) :
    List.foldl (xmlStep base) (stBase u s i r) (locEvents v) =
      stBase u s i (locResultUpdate base u s i r v) := by
  show List.foldl (xmlStep base) _ [_, _, _] = _
  simp only [List.foldl_cons, List.foldl_nil]
  simp [xmlStep, stBase]

theorem locResultUpdate_image (base : String) (u : Bool) (r : SitemapParseResult)
    (v : String) : locResultUpdate base u false true r v = r := by
  unfold locResultUpdate
  split
  · rfl
  · simp

theorem fold_imageLocs (base : String) (u : Bool) (r : SitemapParseResult)
    (ls : List String) :
    List.foldl (xmlStep base) (stBase u false true r)
      ((ls.map locEvents).flatten) = stBase u false true r := by
  induction ls with
  | nil => rfl
  | cons v t ih =>
    rw [List.map_cons, List.flatten_cons, List.foldl_append, fold_locEvents,
      locResultUpdate_image, ih]

/-- The result contribution of one `<url>` child. -/
def urlItemUpdate (base : String) (u : Bool) (r : SitemapParseResult) :
    UrlItem → SitemapParseResult
  | .locItem v => locResultUpdate base u false false r v
  | .imageItem _ => r

theorem fold_urlItemEvents (base : String) (u : Bool) (r : SitemapParseResult)
    (it : UrlItem) :
    List.foldl (xmlStep base) (stBase u false false r) (urlItemEvents it) =
      stBase u false false (urlItemUpdate base u r it) := by
  cases it with
  | locItem v => exact fold_locEvents base u false false r v
  | imageItem ls =>
    simp only [urlItemEvents, List.foldl_cons, List.foldl_append, List.foldl_nil]
    have h1 : xmlStep base (stBase u false false r) (.startTag "image") =
        stBase u false true r := by simp [xmlStep, stBase]
    rw [h1, fold_imageLocs]
    simp [xmlStep, stBase, urlItemUpdate]

theorem fold_urlItems (base : String) (u : Bool) (r : SitemapParseResult)
    (items : List UrlItem) :
    List.foldl (xmlStep base) (stBase u false false r)
      ((items.map urlItemEvents).flatten) =
      stBase u false false (items.foldl (urlItemUpdate base u) r) := by
  induction items generalizing r with
  | nil => rfl
  | cons it t ih =>
    rw [List.map_cons, List.flatten_cons, List.foldl_append, fold_urlItemEvents,
      ih, List.foldl_cons]

theorem fold_urlEntry (base : String) (r : SitemapParseResult)
    (items : List UrlItem) :
    List.foldl (xmlStep base) (stBase false false false r)
      (urlEntryEvents items) =
      stBase false false false (items.foldl (urlItemUpdate base true) r) := by
  simp only [urlEntryEvents, List.foldl_cons, List.foldl_append, List.foldl_nil]
  have h1 : xmlStep base (stBase false false false r) (.startTag "url") =
      stBase true false false r := by simp [xmlStep, stBase]
  rw [h1, fold_urlItems]
  simp [xmlStep, stBase]

theorem fold_urlsetDoc (base : String) (r : SitemapParseResult)
    (doc : List (List UrlItem)) :
    List.foldl (xmlStep base) (stBase false false false r)
      ((doc.map urlEntryEvents).flatten) =
      stBase false false false
        (doc.foldl (fun r items => items.foldl (urlItemUpdate base true) r) r) := by
  induction doc generalizing r with
  | nil => rfl
  | cons items t ih =>
    rw [List.map_cons, List.flatten_cons, List.foldl_append, fold_urlEntry, ih,
      List.foldl_cons]

theorem foldl_insert_union (l : List String) (s : Finset String) :
    l.foldl (fun acc v => insert v acc) s = s ∪ l.toFinset := by
  induction l generalizing s with
  | nil => simp
  | cons a t ih =>
    rw [List.foldl_cons, ih, List.toFinset_cons, Finset.union_insert,
      ← Finset.insert_union]

/-- The values of the direct `<loc>` children of one entry. -/
def itemsDirect (items : List UrlItem) : List String :=
  items.filterMap (fun it =>
    match it with
    | .locItem v => some v
    | .imageItem _ => none)

theorem urlItems_result (base : String) (r : SitemapParseResult)
    (items : List UrlItem) (hgood : ∀ v ∈ itemsDirect items, GoodVal v) :
    items.foldl (urlItemUpdate base true) r =
      { r with urls := r.urls ∪ (itemsDirect items).toFinset } := by
  induction items generalizing r with
  | nil => simp [itemsDirect]
  | cons it t ih =>
    cases it with
    | locItem v =>
      have hv : GoodVal v := hgood v (by simp [itemsDirect])
      have hstep : urlItemUpdate base true r (.locItem v) =
          { r with urls := insert v r.urls } := by
        show locResultUpdate base true false false r v = _
        unfold locResultUpdate
        rw [strTrim_good_ne hv]
        simp [strTrim_good hv]
      rw [List.foldl_cons, hstep,
        ih _ (fun v hv2 => hgood v (by simp [itemsDirect] at hv2 ⊢; tauto))]
      have hdi : itemsDirect (.locItem v :: t) = v :: itemsDirect t := rfl
      rw [hdi, List.toFinset_cons]
      congr 1
      rw [Finset.union_insert, ← Finset.insert_union]
    | imageItem ls =>
      rw [List.foldl_cons]
      have hstep : urlItemUpdate base true r (.imageItem ls) = r := rfl
      rw [hstep, ih _ (fun v hv2 => hgood v (by simp [itemsDirect] at hv2 ⊢; tauto))]
      have hdi : itemsDirect (.imageItem ls :: t) = itemsDirect t := rfl
      rw [hdi]

theorem urlsetDoc_result (base : String) (r : SitemapParseResult)
    (doc : List (List UrlItem)) (hgood : ∀ v ∈ directLocs doc, GoodVal v) :
    doc.foldl (fun r items => items.foldl (urlItemUpdate base true) r) r =
      { r with urls := r.urls ∪ (directLocs doc).toFinset } := by
  induction doc generalizing r with
  | nil => simp [directLocs]
  | cons items t ih =>
    have hd : directLocs (items :: t) = itemsDirect items ++ directLocs t := by
      simp [directLocs, itemsDirect]
    rw [List.foldl_cons,
      urlItems_result base r items (fun v hv => hgood v (by rw [hd]; simp [hv])),
      ih _ (fun v hv => hgood v (by rw [hd]; simp [hv])), hd]
    simp [Finset.union_assoc]

/-- The structured pass on a `urlset` document whose loc values are URLs
(nonempty, whitespace-free): the content-URL set is exactly the set of
direct loc values, and no nested sitemaps are produced. -/
theorem structuredParse_urlset (base : String) (doc : List (List UrlItem))
    (hgood : ∀ v ∈ directLocs doc, GoodVal v) :
    structuredParse (urlsetEvents doc) base =
      { urls := (directLocs doc).toFinset, nested_sitemaps := [] } := by
  simp only [structuredParse, urlsetEvents, List.foldl_cons, List.foldl_append,
    List.foldl_nil]
  have h0 : xmlStep base initXmlState (.startTag "urlset") =
      stBase false false false emptyParseResult := by simp [xmlStep, stBase, initXmlState]
  rw [h0, fold_urlsetDoc, urlsetDoc_result base _ doc hgood]
  simp [xmlStep, stBase, emptyParseResult]

theorem fold_indexEntry (base : String) (r : SitemapParseResult) (v : String)
    (hv : GoodVal v) :
    List.foldl (xmlStep base) (stBase false false false r) (indexEntryEvents v) =
      stBase false false false
        { r with nested_sitemaps := r.nested_sitemaps ++ [make_absolute_url v base] } := by
  simp only [indexEntryEvents, List.foldl_cons, List.foldl_append, List.foldl_nil]
  have h1 : xmlStep base (stBase false false false r) (.startTag "sitemap") =
      stBase false true false r := by simp [xmlStep, stBase]
  rw [h1, fold_locEvents]
  have h2 : locResultUpdate base false true false r v =
      { r with nested_sitemaps := r.nested_sitemaps ++ [make_absolute_url v base] } := by
    unfold locResultUpdate
    rw [strTrim_good_ne hv]
    simp [strTrim_good hv]
  rw [h2]
  simp [xmlStep, stBase]

theorem fold_indexDoc (base : String) (r : SitemapParseResult) (vs : List String)
    (hgood : ∀ v ∈ vs, GoodVal v) :
    List.foldl (xmlStep base) (stBase false false false r)
      ((vs.map indexEntryEvents).flatten) =
      stBase false false false
        { r with nested_sitemaps :=
            r.nested_sitemaps ++ vs.map (fun v => make_absolute_url v base) } := by
  induction vs generalizing r with
  | nil => simp
  | cons v t ih =>
    rw [List.map_cons, List.flatten_cons, List.foldl_append,
      fold_indexEntry base r v (hgood v (by simp)),
      ih _ (fun w hw => hgood w (by simp [hw]))]
    simp

/-- The structured pass on a `sitemapindex` document: no content URLs, and
one nested-sitemap entry (resolved to absolute form) per `<sitemap><loc>`
entry, in order. -/
theorem structuredParse_index (base : String) (vs : List String)
    (hgood : ∀ v ∈ vs, GoodVal v) :
    structuredParse (indexEvents vs) base =
      { urls := ∅,
        nested_sitemaps := vs.map (fun v => make_absolute_url v base) } := by
  simp only [structuredParse, indexEvents, List.foldl_cons, List.foldl_append,
    List.foldl_nil]
  have h0 : xmlStep base initXmlState (.startTag "sitemapindex") =
      stBase false false false emptyParseResult := by
    simp [xmlStep, stBase, initXmlState]
  rw [h0, fold_indexDoc base _ vs hgood]
  simp [xmlStep, stBase, emptyParseResult]

theorem directLocs_singles (vs : List String) :
    directLocs (vs.map (fun v => [UrlItem.locItem v])) = vs := by
  induction vs with
  | nil => rfl
  | cons v t ih => simp [directLocs] at ih ⊢; exact ih

/-- **C5 (amended).**  For a well-formed `urlset` document with at least one
direct `<loc>` (so that the structured result is nonempty and the lenient
fallback is not consulted), the decoded content-URL set is exactly the set
of direct loc values; in particular a loc value nested under `<image>` never
appears unless the same value also occurs as a direct loc. -/
theorem image_loc_exclusion (doc : List (List UrlItem)) (content base : String)
    (hgood : ∀ v ∈ directLocs doc, GoodVal v) (hne : directLocs doc ≠ []) :
    (parse_sitemap_xml (urlsetEvents doc) content base).urls =
      (directLocs doc).toFinset ∧
    (parse_sitemap_xml (urlsetEvents doc) content base).nested_sitemaps = [] ∧
    ∀ b ∈ imageLocs doc, b ∉ directLocs doc →
      b ∉ (parse_sitemap_xml (urlsetEvents doc) content base).urls := by
  have hs := structuredParse_urlset base doc hgood
  obtain ⟨v, hv⟩ : ∃ v, v ∈ directLocs doc := by
    cases hd : directLocs doc with
    | nil => exact absurd hd hne
    | cons a t => exact ⟨a, List.mem_cons_self a t⟩
  have hcond : ¬((structuredParse (urlsetEvents doc) base).urls = ∅ ∧
      (structuredParse (urlsetEvents doc) base).nested_sitemaps = []) := by
    rw [hs]
    rintro ⟨h1, _⟩
    exact Finset.ne_empty_of_mem (List.mem_toFinset.mpr hv) h1
  rw [parse_sitemap_xml, if_neg hcond, hs]
  refine ⟨rfl, rfl, ?_⟩
  intro b _ hbn
  simpa [List.mem_toFinset] using hbn

/-- **C5 (counterexample).**  A well-formed `urlset` document whose only loc
is nested under a (plain-named) `<image>` element: the structured pass
discards it, leaving an empty result, so the decoder falls back to the
lenient scanner on the raw text — which re-extracts the image loc as a
content URL.  The claim's "never appears … regardless of other context"
is therefore false for the decoder as a whole. -/
theorem image_loc_exclusion_counterexample :
    "https://example.com/img" ∈ imageLocs [[UrlItem.imageItem ["https://example.com/img"]]] ∧
    "https://example.com/img" ∉ directLocs [[UrlItem.imageItem ["https://example.com/img"]]] ∧
    (parse_sitemap_xml (urlsetEvents [[UrlItem.imageItem ["https://example.com/img"]]])
        "<urlset><url><image><loc>https://example.com/img</loc></image></url></urlset>"
        "https://example.com").urls = {"https://example.com/img"} := by
  refine ⟨by decide, by decide, by decide⟩

/-- Witness for C5 at a concrete input: a `<url>` with a direct `<loc>` and
an `<image><loc>`; the direct value is decoded, the image value is not. -/
theorem image_loc_exclusion_witness :
    (parse_sitemap_xml (urlsetEvents
        [[UrlItem.locItem "https://example.com/page",
          UrlItem.imageItem ["https://example.com/img"]]])
      "<urlset><url><loc>https://example.com/page</loc><image:image><image:loc>https://example.com/img</image:loc></image:image></url></urlset>"
      "https://example.com").urls = {"https://example.com/page"} ∧
    "https://example.com/img" ∉
      (parse_sitemap_xml (urlsetEvents
        [[UrlItem.locItem "https://example.com/page",
          UrlItem.imageItem ["https://example.com/img"]]])
      "<urlset><url><loc>https://example.com/page</loc><image:image><image:loc>https://example.com/img</image:loc></image:image></url></urlset>"
      "https://example.com").urls := by
  have h := image_loc_exclusion
    [[UrlItem.locItem "https://example.com/page",
      UrlItem.imageItem ["https://example.com/img"]]]
    "<urlset><url><loc>https://example.com/page</loc><image:image><image:loc>https://example.com/img</image:loc></image:image></url></urlset>"
    "https://example.com" (by decide) (by decide)
  refine ⟨?_, h.2.2 "https://example.com/img" (by decide) (by decide)⟩
  rw [h.1]
  decide

/-- **C7 (amended).**  A well-formed `urlset` document with `N ≥ 1` `<url>`
entries whose loc values are *pairwise distinct* URLs decodes to exactly `N`
content URLs and zero nested sitemaps; a `sitemapindex` document with
`N ≥ 1` entries decodes to zero content URLs and exactly `N` nested sitemap
URLs (duplicates allowed, since the nested list is not a set). -/
theorem decode_entry_counts (vs ws : List String) (c1 c2 base : String) :
    (vs ≠ [] → vs.Nodup → (∀ v ∈ vs, GoodVal v) →
      (parse_sitemap_xml (urlsetEvents (vs.map (fun v => [UrlItem.locItem v])))
          c1 base).urls.card = vs.length ∧
      (parse_sitemap_xml (urlsetEvents (vs.map (fun v => [UrlItem.locItem v])))
          c1 base).nested_sitemaps = []) ∧
    (ws ≠ [] → (∀ v ∈ ws, GoodVal v) →
      (parse_sitemap_xml (indexEvents ws) c2 base).urls = ∅ ∧
      (parse_sitemap_xml (indexEvents ws) c2 base).nested_sitemaps.length =
        ws.length) := by
  constructor
  · intro hne hnodup hgood
    have hd := directLocs_singles vs
    have h := image_loc_exclusion (vs.map (fun v => [UrlItem.locItem v])) c1 base
      (by rw [hd]; exact hgood) (by rw [hd]; exact hne)
    refine ⟨?_, h.2.1⟩
    rw [h.1, hd]
    exact List.toFinset_card_of_nodup hnodup
  · intro hne hgood
    have hs := structuredParse_index base ws hgood
    have hcond : ¬((structuredParse (indexEvents ws) base).urls = ∅ ∧
        (structuredParse (indexEvents ws) base).nested_sitemaps = []) := by
      rw [hs]
      rintro ⟨_, h2⟩
      simp at h2
      exact hne h2
    rw [parse_sitemap_xml, if_neg hcond, hs]
    simp

/-- **C7 (counterexample).**  Two `<url>` entries with the same loc value:
the content-URL set (a `HashSet`) collapses them, so a urlset document with
`N = 2` entries decodes to 1 content URL, not 2. -/
theorem decode_entry_counts_counterexample :
    (parse_sitemap_xml
        (urlsetEvents [[UrlItem.locItem "https://example.com/a"],
                       [UrlItem.locItem "https://example.com/a"]])
        "<urlset><url><loc>https://example.com/a</loc></url><url><loc>https://example.com/a</loc></url></urlset>"
        "https://example.com").urls.card = 1 := by
  decide

/-- Witness for C7 at concrete inputs: a 2-entry urlset with distinct values
and a 2-entry sitemapindex. -/
theorem decode_entry_counts_witness :
    (parse_sitemap_xml (urlsetEvents
        (["https://example.com/a", "https://example.com/b"].map
          (fun v => [UrlItem.locItem v])))
        "<urlset><url><loc>https://example.com/a</loc></url><url><loc>https://example.com/b</loc></url></urlset>"
        "https://example.com").urls.card = 2 ∧
    (parse_sitemap_xml (indexEvents ["https://example.com/s1.xml", "/s2.xml"])
        "<sitemapindex><sitemap><loc>https://example.com/s1.xml</loc></sitemap><sitemap><loc>/s2.xml</loc></sitemap></sitemapindex>"
        "https://example.com").nested_sitemaps.length = 2 := by
  have h := decode_entry_counts ["https://example.com/a", "https://example.com/b"]
    ["https://example.com/s1.xml", "/s2.xml"]
    "<urlset><url><loc>https://example.com/a</loc></url><url><loc>https://example.com/b</loc></url></urlset>"
    "<sitemapindex><sitemap><loc>https://example.com/s1.xml</loc></sitemap><sitemap><loc>/s2.xml</loc></sitemap></sitemapindex>"
    "https://example.com"
  exact ⟨(h.1 (by decide) (by decide) (by decide)).1,
    (h.2 (by decide) (by decide)).2⟩

/-! ### C1: which URLs are absolute -/

theorem urlJoin_eq_scheme_append (b : UrlParts) (ref : List Char) :
    ∃ rest, urlJoin b ref = schemeChars b.https ++ rest := by
  unfold urlJoin urlOrigin
  by_cases h : ref.head? = some '/'
  · exact ⟨b.host ++ portEnc b.port ++ ref, by rw [if_pos h]; simp [List.append_assoc]⟩
  · exact ⟨b.host ++ portEnc b.port ++ dirOf b.path ++ ref,
      by rw [if_neg h]; simp [List.append_assoc]⟩

theorem isAbsoluteUrl_scheme_append (https : Bool) (rest : List Char) :
    isAbsoluteUrl (String.mk (schemeChars https ++ rest)) = true := by
  unfold isAbsoluteUrl startsWithLit schemeChars
  cases https <;> simp [isPrefixOf_append_self]

/-- When the base parses as an http(s) URL, `make_absolute_url` always
returns an absolute URL. -/
theorem make_absolute_url_absolute {base : String} {b : UrlParts}
    (hb : parseUrl base = some b) (v : String) :
    isAbsoluteUrl (make_absolute_url v base) = true := by
  unfold make_absolute_url
  by_cases h1 : (startsWithLit v "http://" || startsWithLit v "https://") = true
  · rw [if_pos h1]
    exact h1
  · rw [if_neg h1]
    have habs : ∀ ref : List Char, isAbsoluteUrl (String.mk (urlJoin b ref)) = true := by
      intro ref
      obtain ⟨rest, hrest⟩ := urlJoin_eq_scheme_append b ref
      rw [hrest]
      exact isAbsoluteUrl_scheme_append b.https rest
    by_cases h2 : startsWithLit v "/" = true
    · rw [if_pos h2, hb]
      exact habs v.data
    · rw [if_neg h2, hb]
      exact habs v.data

theorem xmlStep_nested_mem {base : String} {st : XmlState} {e : XmlEvent} {u : String}
    (hu : u ∈ (xmlStep base st e).result.nested_sitemaps) :
    u ∈ st.result.nested_sitemaps ∨ ∃ v, u = make_absolute_url v base := by
  cases e with
  | startTag n =>
    simp only [xmlStep] at hu
    split at hu
    · exact Or.inl hu
    · split at hu
      · exact Or.inl hu
      · split at hu
        · exact Or.inl hu
        · split at hu
          · exact Or.inl hu
          · exact Or.inl hu
  | endTag n =>
    simp only [xmlStep] at hu
    split at hu
    · exact Or.inl hu
    · split at hu
      · exact Or.inl hu
      · split at hu
        · exact Or.inl hu
        · split at hu
          · split at hu
            · dsimp only at hu
              unfold locResultUpdate at hu
              split at hu
              · exact Or.inl hu
              · split at hu
                · dsimp only at hu
                  rcases List.mem_append.mp hu with h | h
                  · exact Or.inl h
                  · simp at h
                    exact Or.inr ⟨_, h⟩
                · split at hu
                  · exact Or.inl hu
                  · exact Or.inl hu
            · exact Or.inl hu
          · exact Or.inl hu
  | text s =>
    simp only [xmlStep] at hu
    split at hu
    · exact Or.inl hu
    · exact Or.inl hu
  | cdata s =>
    simp only [xmlStep] at hu
    split at hu
    · exact Or.inl hu
    · exact Or.inl hu

theorem foldl_xmlStep_nested_absolute {base : String} {b : UrlParts}
    (hb : parseUrl base = some b) (events : List XmlEvent) :
    ∀ st : XmlState, (∀ u ∈ st.result.nested_sitemaps, isAbsoluteUrl u = true) →
      ∀ u ∈ (List.foldl (xmlStep base) st events).result.nested_sitemaps,
        isAbsoluteUrl u = true := by
  induction events with
  | nil => intro st h; exact h
  | cons e t ih =>
    intro st h
    rw [List.foldl_cons]
    apply ih
    intro u hu
    rcases xmlStep_nested_mem hu with h1 | ⟨v, rfl⟩
    · exact h u h1
    · exact make_absolute_url_absolute hb v

theorem fallbackClassify_nested_mem {base : String} {ctx url : List Char}
    {acc : SitemapParseResult} {u : String}
    (hu : u ∈ (fallbackClassify base ctx url acc).nested_sitemaps) :
    u ∈ acc.nested_sitemaps ∨ ∃ v, u = make_absolute_url v base := by
  unfold fallbackClassify at hu
  split at hu
  · exact Or.inl hu
  · split at hu
    · dsimp only at hu
      rcases List.mem_append.mp hu with h | h
      · exact Or.inl h
      · simp at h
        exact Or.inr ⟨_, h⟩
    · exact Or.inl hu

theorem fallbackGo_nested_absolute {base : String} {b : UrlParts}
    (hb : parseUrl base = some b) (fuel : Nat) :
    ∀ (pre rest : List Char) (acc : SitemapParseResult),
      (∀ u ∈ acc.nested_sitemaps, isAbsoluteUrl u = true) →
      ∀ u ∈ (fallbackGo base fuel pre rest acc).nested_sitemaps,
        isAbsoluteUrl u = true := by
  induction fuel with
  | zero => intro pre rest acc h; exact h
  | succ fuel ih =>
    intro pre rest acc h
    rw [fallbackGo]
    cases hf : findSub rest "<loc>".data with
    | none => exact h
    | some i =>
      dsimp only
      cases hg : findSub (rest.drop (i + 5)) "</loc>".data with
      | none => exact h
      | some j =>
        dsimp only
        apply ih
        intro u hu
        rcases fallbackClassify_nested_mem hu with h1 | ⟨v, rfl⟩
        · exact h u h1
        · exact make_absolute_url_absolute hb v

/-- **C1 (amended).**  For every event stream, raw text, and base URL that
parses as an http(s) URL, every URL the decoder places into the
nested-sitemaps list (structured pass or fallback) is absolute.  Content
URLs, by contrast, are inserted verbatim (only trimmed) and need not be
absolute — see the counterexample. -/
theorem nested_sitemaps_absolute (events : List XmlEvent) (content base : String)
    (b : UrlParts) (hb : parseUrl base = some b) (u : String)
    (hu : u ∈ (parse_sitemap_xml events content base).nested_sitemaps) :
    isAbsoluteUrl u = true := by
  unfold parse_sitemap_xml at hu
  split at hu
  · next hcond =>
    unfold parse_fallback at hu
    refine fallbackGo_nested_absolute hb _ _ _ _ ?_ u hu
    rw [hcond.2]
    intro u hu
    cases hu
  · refine foldl_xmlStep_nested_absolute hb events initXmlState ?_ u hu
    intro u hu
    cases hu

/-- Witness for C1 (amended) at a concrete input: the root-relative
reference `/s1.xml` in a sitemapindex resolves to an absolute URL. -/
theorem nested_sitemaps_absolute_witness :
    isAbsoluteUrl "https://example.com/s1.xml" = true :=
  nested_sitemaps_absolute (indexEvents ["/s1.xml"]) "" "https://example.com"
    ⟨true, "example.com".data, none, ['/'], none⟩ (by decide)
    "https://example.com/s1.xml" (by decide)

/-- **C1 (counterexample).**  A well-formed urlset entry with the relative
loc value `page1`: the decoder inserts it into the content-URL set verbatim,
so `SiteResult.urls` can contain a non-absolute URL (the code never resolves
content locs against the base, unlike nested sitemap locs). -/
theorem content_urls_not_absolute_counterexample :
    (parse_sitemap_xml (urlsetEvents [[UrlItem.locItem "page1"]])
        "<urlset><url><loc>page1</loc></url></urlset>"
        "https://example.com").urls = {"page1"} ∧
    isAbsoluteUrl "page1" = false := by
  refine ⟨by decide, by decide⟩

/-! ### C8: the fallback scanner's behaviour

The proofs below characterise one iteration of the scanner's loop
(`fallbackGo_step`), then derive the two behaviours the specification
describes: extraction of every bare `<loc>…</loc>` pair, and the
100-character window classification. -/

theorem findSub_of_isPrefixOf {s pat : List Char} (h : pat.isPrefixOf s = true) :
    findSub s pat = some 0 := by
  cases s with
  | nil =>
    cases pat with
    | nil => rfl
    | cons c t => simp [List.isPrefixOf] at h
  | cons c t =>
    unfold findSub
    rw [if_pos h]

theorem isPrefixOf_cons_elim {a : Char} {p l : List Char}
    (h : ((a :: p).isPrefixOf l) = true) : ∃ t, l = a :: t ∧ p.isPrefixOf t = true := by
  cases l with
  | nil => simp [List.isPrefixOf] at h
  | cons c t =>
    have h2 : (a == c && p.isPrefixOf t) = true := h
    rw [Bool.and_eq_true] at h2
    exact ⟨t, by rw [eq_of_beq h2.1], h2.2⟩

/-- A pattern avoiding `x` that is a prefix of `t ++ x :: bt` must already be
a prefix of `t`. -/
theorem isPrefixOf_split {x : Char} {ps t bt : List Char} (hx : x ∉ ps)
    (h : ps.isPrefixOf (t ++ x :: bt) = true) : ps.isPrefixOf t = true := by
  induction ps generalizing t with
  | nil => cases t <;> rfl
  | cons p0 pt ih =>
    cases t with
    | nil =>
      obtain ⟨t2, ht2, _⟩ := isPrefixOf_cons_elim h
      simp only [List.nil_append] at ht2
      injection ht2 with h1 _
      exact absurd (by rw [h1]; exact List.mem_cons_self p0 pt) hx
    | cons c ct =>
      obtain ⟨t2, ht2, hpt⟩ := isPrefixOf_cons_elim h
      injection ht2 with h1 h2
      have h2' : ct ++ x :: bt = t2 := h2
      show (p0 == c && pt.isPrefixOf ct) = true
      rw [← h1, beq_self_eq_true, Bool.true_and]
      exact ih (fun hm => hx (List.mem_cons_of_mem p0 hm)) (t := ct)
        (by rw [h2']; exact hpt)

/-- A pattern beginning with `x` does not occur in a list avoiding `x`. -/
theorem containsSub_false_of_not_mem {x : Char} {s ps : List Char} (hx : x ∉ s) :
    containsSub s (x :: ps) = false := by
  induction s with
  | nil => rfl
  | cons c t ih =>
    show ((x :: ps).isPrefixOf (c :: t) || containsSub t (x :: ps)) = false
    rw [isPrefixOf_cons_of_ne (fun he => hx (by rw [he]; exact List.mem_cons_self c t)),
      ih (fun hm => hx (List.mem_cons_of_mem c hm)), Bool.or_self]

/-- First occurrence of a pattern `x :: ps` (whose tail avoids `x`) in
`pre ++ block`, when `pre` contains no occurrence and `block` starts with
one: it is at index `pre.length`.  (No occurrence can span the boundary,
because the boundary character `block.head = x` would have to match a
pattern position `≥ 1`, and the tail avoids `x`.) -/
theorem findSub_boundary {x : Char} {pre block ps : List Char}
    (hnc : containsSub pre (x :: ps) = false) (hps : x ∉ ps)
    (hblock : ∃ bt, block = x :: bt)
    (hpre : (x :: ps).isPrefixOf block = true) :
    findSub (pre ++ block) (x :: ps) = some pre.length := by
  induction pre with
  | nil =>
    simp only [List.nil_append, List.length_nil]
    exact findSub_of_isPrefixOf hpre
  | cons c t ih =>
    have hnc2 : ((x :: ps).isPrefixOf (c :: t) || containsSub t (x :: ps)) = false := hnc
    rw [Bool.or_eq_false_iff] at hnc2
    have hstep : ((x :: ps).isPrefixOf (c :: (t ++ block))) = false := by
      by_cases hcx : x = c
      · subst hcx
        -- pattern head matches; the tail must then be a prefix of t (cannot span)
        cases hb : ((x :: ps).isPrefixOf (x :: (t ++ block))) with
        | false => rfl
        | true =>
          obtain ⟨t2, ht2, hpt⟩ := isPrefixOf_cons_elim hb
          have ht2' : t ++ block = t2 := (List.cons.inj ht2).2
          obtain ⟨bt, hbt⟩ := hblock
          have hpt2 : ps.isPrefixOf (t ++ x :: bt) = true := by
            rw [← hbt, ht2']
            exact hpt
          have hsplit : ps.isPrefixOf t = true := isPrefixOf_split hps hpt2
          have : ((x :: ps).isPrefixOf (x :: t)) = true := by
            show (x == x && ps.isPrefixOf t) = true
            rw [beq_self_eq_true, Bool.true_and]
            exact hsplit
          rw [this] at hnc2
          exact absurd hnc2.1 (by simp)
      · exact isPrefixOf_cons_of_ne hcx _ _
    show findSub (c :: (t ++ block)) (x :: ps) = some (t.length + 1)
    unfold findSub
    rw [if_neg (by simp [hstep])]
    rw [ih hnc2.2]
    rfl

theorem drop_len_add {α : Type} (u x : List α) (n : Nat) :
    (u ++ x).drop (u.length + n) = x.drop n := by
  induction u with
  | nil => simp
  | cons c t ih =>
    show (c :: (t ++ x)).drop (t.length + 1 + n) = x.drop n
    have he : t.length + 1 + n = (t.length + n) + 1 := by omega
    rw [he, List.drop_succ_cons, ih]

/-- A scanner run with an empty remainder returns the accumulator, whatever
the fuel. -/
theorem fallbackGo_nil (base : String) (fuel : Nat) (pre : List Char)
    (acc : SitemapParseResult) : fallbackGo base fuel pre [] acc = acc := by
  cases fuel with
  | zero => rfl
  | succ fuel => rfl

/-- One iteration of the scanner: if the remainder is junk containing no
`<loc>`, then a literal `<loc>u</loc>` block (with `u` free of `<`), the
match is found exactly at the junk's end, `u` is extracted, classified by
the window of the last ≤ 100 characters before the match, and scanning
resumes after the block. -/
theorem fallbackGo_step (base : String) (fuel : Nat) (pre pre2 u rest' : List Char)
    (acc : SitemapParseResult)
    (hnc : containsSub pre2 "<loc>".data = false) (hu : '<' ∉ u) :
    fallbackGo base (fuel + 1) pre
        (pre2 ++ ("<loc>".data ++ (u ++ ("</loc>".data ++ rest')))) acc =
      fallbackGo base fuel ((pre ++ pre2) ++ "<loc>".data ++ u ++ "</loc>".data)
        rest'
        (fallbackClassify base
          ((pre ++ pre2).drop ((pre ++ pre2).length - 100)) u acc) := by
  have hfind : findSub (pre2 ++ ("<loc>".data ++ (u ++ ("</loc>".data ++ rest'))))
      "<loc>".data = some pre2.length := by
    exact @findSub_boundary '<' pre2
      ("<loc>".data ++ (u ++ ("</loc>".data ++ rest'))) "loc>".data
      hnc (by decide) ⟨"loc>".data ++ (u ++ ("</loc>".data ++ rest')), rfl⟩
      (isPrefixOf_append_self "<loc>".data _)
  have hdrop5 : (pre2 ++ ("<loc>".data ++ (u ++ ("</loc>".data ++ rest')))).drop
      (pre2.length + 5) = u ++ ("</loc>".data ++ rest') := by
    rw [drop_len_add]
    rfl
  have hfind2 : findSub (u ++ ("</loc>".data ++ rest')) "</loc>".data =
      some u.length := by
    exact @findSub_boundary '<' u ("</loc>".data ++ rest') "/loc>".data
      (containsSub_false_of_not_mem hu) (by decide) ⟨"/loc>".data ++ rest', rfl⟩
      (isPrefixOf_append_self "</loc>".data _)
  have htake : (u ++ ("</loc>".data ++ rest')).take u.length = u := List.take_left u _
  have hdrop6 : (u ++ ("</loc>".data ++ rest')).drop (u.length + 6) = rest' := by
    rw [drop_len_add]
    rfl
  have htake2 : (pre2 ++ ("<loc>".data ++ (u ++ ("</loc>".data ++ rest')))).take
      pre2.length = pre2 := List.take_left pre2 _
  rw [fallbackGo, hfind]
  dsimp only
  rw [hdrop5, hfind2]
  dsimp only
  rw [htake, hdrop6, htake2]

/-- Checks that every `<` in the list is immediately followed by `l` or `/`
(true of any concatenation of `<loc>…</loc>` blocks whose values contain no
`<`).  Such text cannot contain the substring `<sitemap`. -/
def ltHead : List Char → Bool
  | [] => false
  | c2 :: _ => c2 == 'l' || c2 == '/'

def ltFollowOk : List Char → Bool
  | [] => true
  | c :: t => (if c = '<' then ltHead t else true) && ltFollowOk t

/-- Propositional form of `ltFollowOk`, convenient for closure lemmas. -/
def LtFollowOkP (l : List Char) : Prop :=
  ∀ a b, l = a ++ '<' :: b → ∃ c t, b = c :: t ∧ (c = 'l' ∨ c = '/')

theorem ltP_nil : LtFollowOkP [] := by
  intro a b h
  exact absurd h (by simp)

theorem ltP_tail {c : Char} {t : List Char} (h : LtFollowOkP (c :: t)) :
    LtFollowOkP t :=
  fun a b hab => h (c :: a) b (by rw [hab]; rfl)

theorem ltP_of_not_mem {l : List Char} (h : '<' ∉ l) : LtFollowOkP l := by
  intro a b hab
  refine absurd ?_ h
  rw [hab]
  exact List.mem_append.mpr (Or.inr (List.mem_cons_self _ _))

theorem ltP_append {b : List Char} (hb : LtFollowOkP b) :
    ∀ a, LtFollowOkP a → LtFollowOkP (a ++ b) := by
  intro a
  induction a with
  | nil => intro _; simpa using hb
  | cons c t ih =>
    intro ha x y hxy
    cases x with
    | nil =>
      simp only [List.nil_append] at hxy
      injection hxy with h1 h2
      obtain ⟨c', t', ht, hcc⟩ := ha [] t (by rw [h1]; rfl)
      subst ht
      exact ⟨c', t' ++ b, by rw [← h2]; rfl, hcc⟩
    | cons x0 xt =>
      injection hxy with h1 h2
      exact ih (ltP_tail ha) xt y h2

theorem ltP_drop {l : List Char} (h : LtFollowOkP l) (n : Nat) :
    LtFollowOkP (l.drop n) := by
  induction n generalizing l with
  | zero => simpa using h
  | succ n ih =>
    cases l with
    | nil => exact ltP_nil
    | cons c t => exact ih (ltP_tail h)

theorem ltFollowOk_sound : ∀ l, ltFollowOk l = true → LtFollowOkP l := by
  intro l
  induction l with
  | nil => intro _; exact ltP_nil
  | cons c t ih =>
    intro h
    rw [ltFollowOk, Bool.and_eq_true] at h
    by_cases hc : c = '<'
    · subst hc
      rw [if_pos rfl] at h
      cases t with
      | nil => cases h.1
      | cons c2 t2 =>
        intro a b hab
        cases a with
        | nil =>
          simp only [List.nil_append] at hab
          injection hab with _ h2
          refine ⟨c2, t2, h2.symm, ?_⟩
          have h1 := h.1
          simp [ltHead] at h1
          exact h1
        | cons a0 at2 =>
          injection hab with h1 h2
          exact ih h.2 at2 b h2
    · intro a b hab
      cases a with
      | nil =>
        simp only [List.nil_append] at hab
        injection hab with h1 _
        exact absurd h1 hc
      | cons a0 at2 =>
        injection hab with _ h2
        exact ih h.2 at2 b h2

theorem no_sm_of_ltP {l : List Char} (h : LtFollowOkP l) :
    containsSub l "<sitemap".data = false := by
  induction l with
  | nil => rfl
  | cons c t ih =>
    show (("<sitemap".data).isPrefixOf (c :: t) || containsSub t "<sitemap".data) = false
    rw [ih (ltP_tail h), Bool.or_false]
    cases hb : ("<sitemap".data).isPrefixOf (c :: t) with
    | false => rfl
    | true =>
      obtain ⟨t2, ht2, hpt⟩ := isPrefixOf_cons_elim
        (show (('<' :: "sitemap".data).isPrefixOf (c :: t)) = true from hb)
      injection ht2 with h1 h2
      obtain ⟨c', t', ht', hcc⟩ := h [] t (by rw [h1]; rfl)
      rw [← h2, ht'] at hpt
      obtain ⟨t3, ht3, _⟩ := isPrefixOf_cons_elim
        (show (('s' :: "itemap".data).isPrefixOf (c' :: t')) = true from hpt)
      injection ht3 with h3 _
      rcases hcc with rfl | rfl
      · exact absurd h3 (by decide)
      · exact absurd h3 (by decide)

/-- A window known to contain no `<sitemap` classifies the match as a
content URL (inserted verbatim). -/
theorem fallbackClassify_url {base : String} {ctx u : List Char}
    {acc : SitemapParseResult}
    (hctx : containsSub ctx "<sitemap".data = false)
    (htu : trimChars u = u) (hne : u ≠ []) :
    fallbackClassify base ctx u acc =
      { acc with urls := insert (String.mk u) acc.urls } := by
  unfold fallbackClassify
  rw [htu]
  have hE : u.isEmpty = false := by
    cases hu : u with
    | nil => exact absurd hu hne
    | cons a t => rfl
  rw [hE, hctx]
  simp

/-- The concatenation of bare `<loc>…</loc>` blocks. -/
def bareLocsChars (us : List (List Char)) : List Char :=
  (us.map (fun u => "<loc>".data ++ u ++ "</loc>".data)).flatten

theorem bareLocs_len (us : List (List Char)) :
    us.length ≤ (bareLocsChars us).length := by
  induction us with
  | nil => simp [bareLocsChars]
  | cons u t ih =>
    simp [bareLocsChars] at ih ⊢
    omega

theorem fallbackGo_bareLocs (base : String) :
    ∀ (us : List (List Char)) (fuel : Nat) (pre : List Char)
      (acc : SitemapParseResult),
      us.length < fuel → LtFollowOkP pre →
      (∀ u ∈ us, '<' ∉ u ∧ trimChars u = u ∧ u ≠ []) →
      fallbackGo base fuel pre (bareLocsChars us) acc =
        { acc with urls := acc.urls ∪ (us.map String.mk).toFinset } := by
  intro us
  induction us with
  | nil =>
    intro fuel pre acc _ _ _
    show fallbackGo base fuel pre [] acc = _
    rw [fallbackGo_nil]
    simp
  | cons u rest ih =>
    intro fuel pre acc hf hpre hg
    cases fuel with
    | zero => omega
    | succ fuel =>
      obtain ⟨hu1, hu2, hu3⟩ := hg u (List.mem_cons_self u rest)
      have hb : bareLocsChars (u :: rest) =
          [] ++ ("<loc>".data ++ (u ++ ("</loc>".data ++ bareLocsChars rest))) := by
        simp [bareLocsChars, List.append_assoc]
      rw [hb, fallbackGo_step base fuel pre [] u (bareLocsChars rest) acc rfl hu1]
      simp only [List.append_nil]
      rw [fallbackClassify_url (no_sm_of_ltP (ltP_drop hpre _)) hu2 hu3]
      have hpre' : LtFollowOkP (pre ++ "<loc>".data ++ u ++ "</loc>".data) := by
        have p1 : LtFollowOkP "</loc>".data := ltFollowOk_sound _ (by decide)
        have p2 : LtFollowOkP u := ltP_of_not_mem hu1
        have p3 : LtFollowOkP "<loc>".data := ltFollowOk_sound _ (by decide)
        exact ltP_append p1 _ (ltP_append p2 _ (ltP_append p3 _ hpre))
      rw [ih fuel _ _ (by simpa using Nat.lt_of_succ_lt_succ hf) hpre'
        (fun v hv => hg v (List.mem_cons_of_mem u hv))]
      congr 1
      rw [List.map_cons, List.toFinset_cons, Finset.insert_union,
        Finset.union_insert]

/-- The scanner's behaviour over the character-level abstraction
`parse_fallback` (exact for the source only on ASCII input, where one byte
is one character; the byte-accurate account is `fallback_scanner_bytes_spec`
below): the fallback runs exactly when the structured pass is empty; bare
`<loc>…</loc>` pairs yield every value as a content URL; a single match is
classified by the window of the 100 characters before it. -/
theorem fallbackChars_spec :
    (∀ (events : List XmlEvent) (content base : String),
      (structuredParse events base).urls = ∅ →
      (structuredParse events base).nested_sitemaps = [] →
      parse_sitemap_xml events content base =
        parse_fallback content base (structuredParse events base)) ∧
    (∀ (us : List (List Char)) (base : String),
      (∀ u ∈ us, '<' ∉ u ∧ trimChars u = u ∧ u ≠ []) →
      parse_fallback (String.mk (bareLocsChars us)) base emptyParseResult =
        { urls := (us.map String.mk).toFinset, nested_sitemaps := [] }) ∧
    (∀ (pre u : List Char) (base : String),
      containsSub pre "<loc>".data = false →
      '<' ∉ u → trimChars u = u → u ≠ [] →
      parse_fallback (String.mk (pre ++ ("<loc>".data ++ (u ++ "</loc>".data))))
          base emptyParseResult =
        if containsSub (pre.drop (pre.length - 100)) "<sitemap".data = true ∧
            containsSub (pre.drop (pre.length - 100)) "</sitemap>".data = false then
          { urls := ∅, nested_sitemaps := [make_absolute_url (String.mk u) base] }
        else { urls := {String.mk u}, nested_sitemaps := [] }) := by
  refine ⟨?_, ?_, ?_⟩
  · intro events content base h1 h2
    unfold parse_sitemap_xml
    rw [if_pos ⟨h1, h2⟩]
  · intro us base hg
    unfold parse_fallback
    rw [fallbackGo_bareLocs base us _ [] emptyParseResult
      (Nat.lt_succ_of_le (bareLocs_len us)) ltP_nil hg]
    simp [emptyParseResult]
  · intro pre u base hnl hu1 hu2 hu3
    unfold parse_fallback
    have hshape : (String.mk (pre ++ ("<loc>".data ++ (u ++ "</loc>".data)))).data =
        pre ++ ("<loc>".data ++ (u ++ ("</loc>".data ++ []))) := by simp
    rw [hshape, fallbackGo_step base _ [] pre u [] emptyParseResult hnl hu1,
      fallbackGo_nil]
    simp only [List.nil_append]
    unfold fallbackClassify
    rw [hu2]
    have hE : u.isEmpty = false := by
      cases hu : u with
      | nil => exact absurd hu hu3
      | cons a t => rfl
    rw [hE]
    simp only [Bool.false_eq_true, if_false]
    by_cases hA : containsSub (pre.drop (pre.length - 100)) "<sitemap".data = true
    · by_cases hB : containsSub (pre.drop (pre.length - 100)) "</sitemap>".data = false
      · simp [hA, hB, emptyParseResult]
      · have hB' : containsSub (pre.drop (pre.length - 100)) "</sitemap>".data = true := by
          cases hX : containsSub (pre.drop (pre.length - 100)) "</sitemap>".data with
          | true => rfl
          | false => exact absurd hX hB
        simp [hA, hB', emptyParseResult]
    · have hA' : containsSub (pre.drop (pre.length - 100)) "<sitemap".data = false := by
        cases hX : containsSub (pre.drop (pre.length - 100)) "<sitemap".data with
        | false => rfl
        | true => exact absurd hX hA
      simp [hA', emptyParseResult]

/-! ### C10: byte-level model of the fallback scanner

The Rust code indexes `content` by UTF-8 *byte* offsets and slices it with
`&content[i..j]`, which panics when an index is not a character boundary.
All pattern positions land after ASCII text, but the look-behind window's
start `(start + loc_start).saturating_sub(100)` is an arbitrary byte offset
and can split a multi-byte character.  The model below works on the UTF-8
byte sequence, with every slice guarded exactly as `str` slicing is:
`none` models a panic. -/

/-- `str::is_char_boundary`: index 0, the length, or a byte that is not a
UTF-8 continuation byte (`0x80..0xC0`). -/
def isCharBoundaryB (l : List Nat) (i : Nat) : Bool :=
  i == 0 || i == l.length ||
    (match l[i]? with
     | some b => !(128 ≤ b && b < 192)
     | none => false)

/-- `&s[i..j]`: `none` models the slice panic (reversed or out-of-range
indices, or an index off a character boundary). -/
def sliceBytes (l : List Nat) (i j : Nat) : Option (List Nat) :=
  if isCharBoundaryB l i && isCharBoundaryB l j && decide (i ≤ j) &&
      decide (j ≤ l.length) then
    some ((l.drop i).take (j - i))
  else none

/-- ASCII bytes of a pattern string. -/
def asciiBytes (s : String) : List Nat := s.data.map Char.toNat

def isWsByte (b : Nat) : Bool := b == 32 || b == 9 || b == 10 || b == 13

/-- `str::trim` on bytes (ASCII whitespace). -/
def trimBytes (l : List Nat) : List Nat :=
  ((l.dropWhile isWsByte).reverse.dropWhile isWsByte).reverse

/-- `str::contains` on bytes. -/
def containsSubB : List Nat → List Nat → Bool
  | [], pat => pat.isEmpty
  | c :: t, pat => pat.isPrefixOf (c :: t) || containsSubB t pat

/-- `str::find` on bytes: byte index of the first occurrence. -/
def findSubB : List Nat → List Nat → Option Nat
  | [], pat => if pat.isEmpty then some 0 else none
  | c :: t, pat => if pat.isPrefixOf (c :: t) then some 0 else (findSubB t pat).map (· + 1)

/-- The fallback scanner's result at the byte level.  URL resolution
(`make_absolute_url`) plays no role in the panic analysis, so the extracted
byte strings are recorded unresolved. -/
structure ByteParseResult where
  urls : Finset (List Nat)
  nested_sitemaps : List (List Nat)
  deriving DecidableEq

/-- One iteration of `parse_fallback`'s `while` loop (`src/sitemap.rs`
lines 109–130) on UTF-8 bytes, with every `&content[..]` slice guarded
exactly as `str` slicing is.  The slices mirror the source: the tail
`content[start..]`, the post-match tail `content[absolute_start..]`, the
URL slice, and the look-behind window
`content[context_start..start+loc_start]` with
`context_start = (start + loc_start).saturating_sub(100)`.  The outer
`none` models a slice panic; `some none` is the loop exiting (no further
match, or `</loc>` missing — the `break`); `some (some (start2, acc2))` is
the next iteration's position and result. -/
def parseFallbackBytesStep (content : List Nat) (start : Nat)
    (acc : ByteParseResult) : Option (Option (Nat × ByteParseResult)) :=
  match sliceBytes content start content.length with
  | none => none
  | some s =>
    match findSubB s (asciiBytes "<loc>") with
    | none => some none
    | some loc_start =>
      match sliceBytes content (start + loc_start + 5) content.length with
      | none => none
      | some s2 =>
        match findSubB s2 (asciiBytes "</loc>") with
        | none => some none
        | some loc_end =>
          match sliceBytes content (start + loc_start + 5)
              (start + loc_start + 5 + loc_end) with
          | none => none
          | some urlRaw =>
            if (trimBytes urlRaw).isEmpty then
              some (some (start + loc_start + 5 + loc_end + 6, acc))
            else
              match sliceBytes content ((start + loc_start) - 100)
                  (start + loc_start) with
              | none => none
              | some ctx =>
                some (some (start + loc_start + 5 + loc_end + 6,
                  if containsSubB ctx (asciiBytes "<sitemap") &&
                      !containsSubB ctx (asciiBytes "</sitemap>") then
                    { acc with nested_sitemaps :=
                        acc.nested_sitemaps ++ [trimBytes urlRaw] }
                  else { acc with urls := insert (trimBytes urlRaw) acc.urls }))

/-- The `while` loop itself: iterate `parseFallbackBytesStep`, propagating a
modelled panic.  Every iteration advances `start` by at least 11 bytes, so
`content.length + 1` fuel always suffices (`parse_fallback_bytes` supplies
it). -/
def parseFallbackBytesGo (content : List Nat) :
    Nat → Nat → ByteParseResult → Option ByteParseResult
  | 0, _, acc => some acc
  | fuel + 1, start, acc =>
    match parseFallbackBytesStep content start acc with
    | none => none
    | some none => some acc
    | some (some (start2, acc2)) => parseFallbackBytesGo content fuel start2 acc2

/-- `parse_fallback` at the byte level. -/
def parse_fallback_bytes (content : List Nat) : Option ByteParseResult :=
  parseFallbackBytesGo content (content.length + 1) 0 ⟨∅, []⟩

/-- The UTF-8 bytes of the document `é` + 99 spaces + `<loc>x</loc>`:
`é` is the two bytes `0xC3 0xA9`, so the first `<loc>` match sits at byte
offset 101 and the window start `101 - 100 = 1` falls inside `é`. -/
def c10FailingInput : List Nat :=
  [195, 169] ++ List.replicate 99 32 ++ asciiBytes "<loc>x</loc>"

/-- The quick_xml events of that document (`trim_text(true)` trims the
leading text event): the bare `<loc>` has no `url`/`sitemap` ancestor, so
the structured pass produces nothing. -/
def c10FailingEvents : List XmlEvent :=
  [.text "é", .startTag "loc", .text "x", .endTag "loc"]

set_option maxRecDepth 8000 in
/-- **C10.**  The decoder is *not* total: on `é` + 99 spaces +
`<loc>x</loc>` the structured pass yields an empty result (first two
conjuncts), so `parse_sitemap_xml` runs the fallback scanner on the raw
text — whose look-behind window slice `&content[1..101]` starts inside the
multi-byte character `é` and panics (third conjunct: the byte-level model
returns `none`, the modelled panic). -/
theorem fallback_window_slice_panics :
    (structuredParse c10FailingEvents "https://example.com").urls = ∅ ∧
    (structuredParse c10FailingEvents "https://example.com").nested_sitemaps = [] ∧
    parse_fallback_bytes c10FailingInput = none := by
  refine ⟨by decide, by decide, by decide⟩

/-! ### C8: the scanner's behaviour at the byte level

The source measures the look-behind window in *bytes* and slices by byte
offsets, so the scanner's extraction and classification behaviour is
established here over the byte-accurate model `parse_fallback_bytes`, on
all-ASCII input — exactly the inputs on which no slice can panic.  On input
with a multi-byte character the extraction guarantee fails: see the C8
counterexample below. -/

theorem ascii_isCharBoundary {l : List Nat} (h : ∀ b ∈ l, b < 128) {i : Nat}
    (hi : i ≤ l.length) : isCharBoundaryB l i = true := by
  rcases Nat.lt_or_ge i l.length with hlt | hge
  · have hgi : l[i]? = some l[i] := List.getElem?_eq_getElem hlt
    have hb : l[i] < 128 := h _ (List.getElem_mem hlt)
    unfold isCharBoundaryB
    rw [hgi]
    dsimp only
    simp [hb]
  · have he : i = l.length := Nat.le_antisymm hi hge
    unfold isCharBoundaryB
    simp [he]

theorem sliceBytes_ascii {l : List Nat} (h : ∀ b ∈ l, b < 128) {i j : Nat}
    (hij : i ≤ j) (hj : j ≤ l.length) :
    sliceBytes l i j = some ((l.drop i).take (j - i)) := by
  unfold sliceBytes
  rw [if_pos]
  simp [ascii_isCharBoundary h (Nat.le_trans hij hj), ascii_isCharBoundary h hj,
    hij, hj]

theorem findSubB_of_isPrefixOf {s pat : List Nat} (h : pat.isPrefixOf s = true) :
    findSubB s pat = some 0 := by
  cases s with
  | nil =>
    cases pat with
    | nil => rfl
    | cons c t => simp [List.isPrefixOf] at h
  | cons c t =>
    unfold findSubB
    rw [if_pos h]

theorem isPrefixOfB_cons_elim {a : Nat} {p l : List Nat}
    (h : ((a :: p).isPrefixOf l) = true) : ∃ t, l = a :: t ∧ p.isPrefixOf t = true := by
  cases l with
  | nil => simp [List.isPrefixOf] at h
  | cons c t =>
    have h2 : (a == c && p.isPrefixOf t) = true := h
    rw [Bool.and_eq_true] at h2
    exact ⟨t, by rw [eq_of_beq h2.1], h2.2⟩

/-- A pattern avoiding `x` that is a prefix of `t ++ x :: bt` must already be
a prefix of `t`. -/
theorem isPrefixOfB_split {x : Nat} {ps t bt : List Nat} (hx : x ∉ ps)
    (h : ps.isPrefixOf (t ++ x :: bt) = true) : ps.isPrefixOf t = true := by
  induction ps generalizing t with
  | nil => cases t <;> rfl
  | cons p0 pt ih =>
    cases t with
    | nil =>
      obtain ⟨t2, ht2, _⟩ := isPrefixOfB_cons_elim h
      simp only [List.nil_append] at ht2
      injection ht2 with h1 _
      exact absurd (by rw [h1]; exact List.mem_cons_self p0 pt) hx
    | cons c ct =>
      obtain ⟨t2, ht2, hpt⟩ := isPrefixOfB_cons_elim h
      injection ht2 with h1 h2
      have h2' : ct ++ x :: bt = t2 := h2
      show (p0 == c && pt.isPrefixOf ct) = true
      rw [← h1, beq_self_eq_true, Bool.true_and]
      exact ih (fun hm => hx (List.mem_cons_of_mem p0 hm)) (t := ct)
        (by rw [h2']; exact hpt)

/-- A pattern beginning with `x` does not occur in a list avoiding `x`. -/
theorem containsSubB_false_of_not_mem {x : Nat} {s ps : List Nat} (hx : x ∉ s) :
    containsSubB s (x :: ps) = false := by
  induction s with
  | nil => rfl
  | cons c t ih =>
    show ((x :: ps).isPrefixOf (c :: t) || containsSubB t (x :: ps)) = false
    rw [isPrefixOf_cons_of_ne (fun he => hx (by rw [he]; exact List.mem_cons_self c t)),
      ih (fun hm => hx (List.mem_cons_of_mem c hm)), Bool.or_self]

/-- First occurrence of a byte pattern `x :: ps` (whose tail avoids `x`) in
`pre ++ block`, when `pre` contains no occurrence and `block` starts with
one: it is at byte index `pre.length`. -/
theorem findSubB_boundary {x : Nat} {pre block ps : List Nat}
    (hnc : containsSubB pre (x :: ps) = false) (hps : x ∉ ps)
    (hblock : ∃ bt, block = x :: bt)
    (hpre : (x :: ps).isPrefixOf block = true) :
    findSubB (pre ++ block) (x :: ps) = some pre.length := by
  induction pre with
  | nil =>
    simp only [List.nil_append, List.length_nil]
    exact findSubB_of_isPrefixOf hpre
  | cons c t ih =>
    have hnc2 : ((x :: ps).isPrefixOf (c :: t) || containsSubB t (x :: ps)) = false := hnc
    rw [Bool.or_eq_false_iff] at hnc2
    have hstep : ((x :: ps).isPrefixOf (c :: (t ++ block))) = false := by
      by_cases hcx : x = c
      · subst hcx
        cases hb : ((x :: ps).isPrefixOf (x :: (t ++ block))) with
        | false => rfl
        | true =>
          obtain ⟨t2, ht2, hpt⟩ := isPrefixOfB_cons_elim hb
          have ht2' : t ++ block = t2 := (List.cons.inj ht2).2
          obtain ⟨bt, hbt⟩ := hblock
          have hpt2 : ps.isPrefixOf (t ++ x :: bt) = true := by
            rw [← hbt, ht2']
            exact hpt
          have hsplit : ps.isPrefixOf t = true := isPrefixOfB_split hps hpt2
          have : ((x :: ps).isPrefixOf (x :: t)) = true := by
            show (x == x && ps.isPrefixOf t) = true
            rw [beq_self_eq_true, Bool.true_and]
            exact hsplit
          rw [this] at hnc2
          exact absurd hnc2.1 (by simp)
      · exact isPrefixOf_cons_of_ne hcx _ _
    show findSubB (c :: (t ++ block)) (x :: ps) = some (t.length + 1)
    unfold findSubB
    rw [if_neg (by simp [hstep])]
    rw [ih hnc2.2]
    rfl

def ltHeadB : List Nat → Bool
  | [] => false
  | c2 :: _ => c2 == 108 || c2 == 47

/-- Checks that every `<` byte (60) is immediately followed by `l` (108) or
`/` (47) — true of any concatenation of `<loc>…</loc>` byte blocks whose
values contain no `<`.  Such bytes cannot contain `<sitemap`. -/
def ltFollowOkB : List Nat → Bool
  | [] => true
  | c :: t => (if c = 60 then ltHeadB t else true) && ltFollowOkB t

/-- Propositional form of `ltFollowOkB`. -/
def LtFollowOkBP (l : List Nat) : Prop :=
  ∀ a b, l = a ++ 60 :: b → ∃ c t, b = c :: t ∧ (c = 108 ∨ c = 47)

theorem ltPB_nil : LtFollowOkBP [] := by
  intro a b h
  exact absurd h (by simp)

theorem ltPB_tail {c : Nat} {t : List Nat} (h : LtFollowOkBP (c :: t)) :
    LtFollowOkBP t :=
  fun a b hab => h (c :: a) b (by rw [hab]; rfl)

theorem ltPB_of_not_mem {l : List Nat} (h : 60 ∉ l) : LtFollowOkBP l := by
  intro a b hab
  refine absurd ?_ h
  rw [hab]
  exact List.mem_append.mpr (Or.inr (List.mem_cons_self _ _))

theorem ltPB_append {b : List Nat} (hb : LtFollowOkBP b) :
    ∀ a, LtFollowOkBP a → LtFollowOkBP (a ++ b) := by
  intro a
  induction a with
  | nil => intro _; simpa using hb
  | cons c t ih =>
    intro ha x y hxy
    cases x with
    | nil =>
      simp only [List.nil_append] at hxy
      injection hxy with h1 h2
      obtain ⟨c', t', ht, hcc⟩ := ha [] t (by rw [h1]; rfl)
      subst ht
      exact ⟨c', t' ++ b, by rw [← h2]; rfl, hcc⟩
    | cons x0 xt =>
      injection hxy with h1 h2
      exact ih (ltPB_tail ha) xt y h2

theorem ltPB_drop {l : List Nat} (h : LtFollowOkBP l) (n : Nat) :
    LtFollowOkBP (l.drop n) := by
  induction n generalizing l with
  | zero => simpa using h
  | succ n ih =>
    cases l with
    | nil => exact ltPB_nil
    | cons c t => exact ih (ltPB_tail h)

theorem ltFollowOkB_sound : ∀ l, ltFollowOkB l = true → LtFollowOkBP l := by
  intro l
  induction l with
  | nil => intro _; exact ltPB_nil
  | cons c t ih =>
    intro h
    rw [ltFollowOkB, Bool.and_eq_true] at h
    by_cases hc : c = 60
    · subst hc
      rw [if_pos rfl] at h
      cases t with
      | nil => cases h.1
      | cons c2 t2 =>
        intro a b hab
        cases a with
        | nil =>
          simp only [List.nil_append] at hab
          injection hab with _ h2
          refine ⟨c2, t2, h2.symm, ?_⟩
          have h1 := h.1
          simp [ltHeadB] at h1
          exact h1
        | cons a0 at2 =>
          injection hab with h1 h2
          exact ih h.2 at2 b h2
    · intro a b hab
      cases a with
      | nil =>
        simp only [List.nil_append] at hab
        injection hab with h1 _
        exact absurd h1 hc
      | cons a0 at2 =>
        injection hab with _ h2
        exact ih h.2 at2 b h2

theorem no_smB_of_ltPB {l : List Nat} (h : LtFollowOkBP l) :
    containsSubB l (asciiBytes "<sitemap") = false := by
  induction l with
  | nil => rfl
  | cons c t ih =>
    show ((asciiBytes "<sitemap").isPrefixOf (c :: t) ||
      containsSubB t (asciiBytes "<sitemap")) = false
    rw [ih (ltPB_tail h), Bool.or_false]
    cases hb : (asciiBytes "<sitemap").isPrefixOf (c :: t) with
    | false => rfl
    | true =>
      obtain ⟨t2, ht2, hpt⟩ := isPrefixOfB_cons_elim
        (show ((60 :: asciiBytes "sitemap").isPrefixOf (c :: t)) = true from hb)
      injection ht2 with h1 h2
      obtain ⟨c', t', ht', hcc⟩ := h [] t (by rw [h1]; rfl)
      rw [← h2, ht'] at hpt
      obtain ⟨t3, ht3, _⟩ := isPrefixOfB_cons_elim
        (show ((115 :: asciiBytes "itemap").isPrefixOf (c' :: t')) = true from hpt)
      injection ht3 with h3 _
      rcases hcc with rfl | rfl
      · exact absurd h3 (by decide)
      · exact absurd h3 (by decide)

theorem take_len_add {α : Type} (u x : List α) (n : Nat) :
    (u ++ x).take (u.length + n) = u ++ x.take n := by
  induction u with
  | nil => simp
  | cons c t ih =>
    have e : (c :: t).length + n = (t.length + n) + 1 := by
      simp [List.length_cons]
      omega
    rw [List.cons_append, e, List.take_succ_cons, ih, List.cons_append]

theorem parseFallbackBytesGo_exit (C : List Nat) (fuel st : Nat)
    (acc : ByteParseResult)
    (hstep : parseFallbackBytesStep C st acc = some none) :
    parseFallbackBytesGo C (fuel + 1) st acc = some acc := by
  rw [parseFallbackBytesGo, hstep]

theorem parseFallbackBytesGo_continue (C : List Nat) (fuel st st2 : Nat)
    (acc acc2 : ByteParseResult)
    (hstep : parseFallbackBytesStep C st acc = some (some (st2, acc2))) :
    parseFallbackBytesGo C (fuel + 1) st acc =
      parseFallbackBytesGo C fuel st2 acc2 := by
  rw [parseFallbackBytesGo, hstep]

/-- A run of the byte scanner whose remainder is empty returns the
accumulator. -/
theorem parseFallbackBytesGo_end (C : List Nat) (hA : ∀ b ∈ C, b < 128)
    (fuel st : Nat) (acc : ByteParseResult) (hst : st ≤ C.length)
    (hdrop : C.drop st = []) :
    parseFallbackBytesGo C fuel st acc = some acc := by
  cases fuel with
  | zero => rfl
  | succ fuel =>
    have hs : sliceBytes C st C.length = some [] := by
      rw [sliceBytes_ascii hA hst (le_refl C.length), hdrop, List.take_nil]
    refine parseFallbackBytesGo_exit C fuel st acc ?_
    unfold parseFallbackBytesStep
    rw [hs]
    dsimp only
    rw [show findSubB [] (asciiBytes "<loc>") = none from by decide]

/-- One iteration of the byte scanner on all-ASCII content: junk free of
`<loc>` followed by a literal `<loc>u</loc>` block (`u` free of `<`,
trim-invariant, nonempty).  No slice panics; the match is found at the
junk's end, `u` is extracted, classified by the window of the last ≤ 100
*bytes* before the match, and scanning resumes after the block. -/
theorem parseFallbackBytesGo_step (C : List Nat) (hA : ∀ b ∈ C, b < 128)
    (fuel st : Nat) (junk u rest' : List Nat) (acc : ByteParseResult)
    (hst : st ≤ C.length)
    (hsplit : C.drop st =
      junk ++ (asciiBytes "<loc>" ++ (u ++ (asciiBytes "</loc>" ++ rest'))))
    (hnc : containsSubB junk (asciiBytes "<loc>") = false)
    (hu : 60 ∉ u) (htu : trimBytes u = u) (hne : u ≠ []) :
    parseFallbackBytesGo C (fuel + 1) st acc =
      parseFallbackBytesGo C fuel (st + junk.length + 5 + u.length + 6)
        (if containsSubB ((C.take (st + junk.length)).drop (st + junk.length - 100))
              (asciiBytes "<sitemap") &&
            !containsSubB ((C.take (st + junk.length)).drop (st + junk.length - 100))
              (asciiBytes "</sitemap>") then
          { acc with nested_sitemaps := acc.nested_sitemaps ++ [u] }
        else { acc with urls := insert u acc.urls }) := by
  have h5 : (asciiBytes "<loc>").length = 5 := by decide
  have h6 : (asciiBytes "</loc>").length = 6 := by decide
  have hloc : asciiBytes "<loc>" = 60 :: [108, 111, 99, 62] := by decide
  have heloc : asciiBytes "</loc>" = 60 :: [47, 108, 111, 99, 62] := by decide
  have hlen : C.length - st = junk.length + 5 + u.length + 6 + rest'.length := by
    have hl := congrArg List.length hsplit
    rw [List.length_drop] at hl
    simp only [List.length_append] at hl
    rw [h5, h6] at hl
    omega
  have hb1 : st + junk.length + 5 ≤ C.length := by omega
  have hb2 : st + junk.length + 5 + u.length ≤ C.length := by omega
  have hb3 : st + junk.length ≤ C.length := by omega
  have hs1 : sliceBytes C st C.length = some (C.drop st) := by
    rw [sliceBytes_ascii hA hst (le_refl C.length)]
    congr 1
    rw [← List.length_drop]
    exact List.take_length _
  have hf1 : findSubB (C.drop st) (asciiBytes "<loc>") = some junk.length := by
    rw [hsplit, hloc, heloc]
    rw [hloc] at hnc
    exact findSubB_boundary hnc (by decide)
      ⟨[108, 111, 99, 62] ++ (u ++ ([60, 47, 108, 111, 99, 62] ++ rest')),
        List.cons_append _ _ _⟩
      (isPrefixOf_append_self (60 :: [108, 111, 99, 62]) _)
  have hdropk : ∀ k, C.drop (st + k) = (C.drop st).drop k := by
    intro k
    rw [List.drop_drop]
  have hd2 : C.drop (st + junk.length + 5) =
      u ++ (asciiBytes "</loc>" ++ rest') := by
    have e : st + junk.length + 5 = st + (junk.length + 5) := by omega
    rw [e, hdropk, hsplit]
    have e2 : junk.length + 5 = junk.length + ((asciiBytes "<loc>").length + 0) := by
      rw [h5]
    rw [e2, drop_len_add, drop_len_add, List.drop_zero]
  have hs2 : sliceBytes C (st + junk.length + 5) C.length =
      some (u ++ (asciiBytes "</loc>" ++ rest')) := by
    rw [sliceBytes_ascii hA hb1 (le_refl C.length)]
    congr 1
    rw [← hd2, ← List.length_drop]
    exact List.take_length _
  have hf2 : findSubB (u ++ (asciiBytes "</loc>" ++ rest')) (asciiBytes "</loc>") =
      some u.length := by
    rw [heloc]
    exact findSubB_boundary (containsSubB_false_of_not_mem hu) (by decide)
      ⟨[47, 108, 111, 99, 62] ++ rest', List.cons_append _ _ _⟩
      (isPrefixOf_append_self (60 :: [47, 108, 111, 99, 62]) _)
  have hs3 : sliceBytes C (st + junk.length + 5) (st + junk.length + 5 + u.length) =
      some u := by
    rw [sliceBytes_ascii hA (by omega) hb2]
    congr 1
    have e : st + junk.length + 5 + u.length - (st + junk.length + 5) = u.length := by
      omega
    rw [e, hd2]
    exact List.take_left u _
  have hs4 : sliceBytes C (st + junk.length - 100) (st + junk.length) =
      some ((C.take (st + junk.length)).drop (st + junk.length - 100)) := by
    rw [sliceBytes_ascii hA (Nat.sub_le _ _) hb3]
    congr 1
    rw [List.drop_take]
  have hE : u.isEmpty = false := by
    cases hu2 : u with
    | nil => exact absurd hu2 hne
    | cons a t => rfl
  refine parseFallbackBytesGo_continue C fuel st _ acc _ ?_
  unfold parseFallbackBytesStep
  rw [hs1]
  dsimp only
  rw [hf1]
  dsimp only
  rw [hs2]
  dsimp only
  rw [hf2]
  dsimp only
  rw [hs3]
  dsimp only
  rw [htu, hE]
  simp only [Bool.false_eq_true, if_false]
  rw [hs4]

/-- The concatenation of bare `<loc>…</loc>` blocks at the byte level. -/
def bareLocsBytes (us : List (List Nat)) : List Nat :=
  (us.map (fun u => asciiBytes "<loc>" ++ u ++ asciiBytes "</loc>")).flatten

theorem bareLocsBytes_len (us : List (List Nat)) :
    us.length ≤ (bareLocsBytes us).length := by
  induction us with
  | nil => simp [bareLocsBytes]
  | cons u t ih =>
    have h5 : (asciiBytes "<loc>").length = 5 := by decide
    have h6 : (asciiBytes "</loc>").length = 6 := by decide
    simp [bareLocsBytes, h5, h6] at ih ⊢
    omega

theorem bareLocsBytes_ascii (us : List (List Nat))
    (h : ∀ u ∈ us, ∀ b ∈ u, b < 128) :
    ∀ b ∈ bareLocsBytes us, b < 128 := by
  induction us with
  | nil =>
    intro b hb
    simp [bareLocsBytes] at hb
  | cons u t ih =>
    intro b hb
    have he : bareLocsBytes (u :: t) =
        (asciiBytes "<loc>" ++ u ++ asciiBytes "</loc>") ++ bareLocsBytes t := by
      simp [bareLocsBytes]
    rw [he] at hb
    rcases List.mem_append.mp hb with h1 | h2
    · rcases List.mem_append.mp h1 with h3 | h4
      · rcases List.mem_append.mp h3 with h5 | h6
        · exact (by decide : ∀ x ∈ asciiBytes "<loc>", x < 128) b h5
        · exact h u (List.mem_cons_self u t) b h6
      · exact (by decide : ∀ x ∈ asciiBytes "</loc>", x < 128) b h4
    · exact ih (fun v hv => h v (List.mem_cons_of_mem u hv)) b h2

theorem parseFallbackBytesGo_bareLocs (C : List Nat) (hA : ∀ b ∈ C, b < 128) :
    ∀ (us : List (List Nat)) (fuel st : Nat) (acc : ByteParseResult),
      us.length < fuel → st ≤ C.length →
      C.drop st = bareLocsBytes us →
      LtFollowOkBP (C.take st) →
      (∀ u ∈ us, 60 ∉ u ∧ trimBytes u = u ∧ u ≠ []) →
      parseFallbackBytesGo C fuel st acc =
        some { acc with urls := acc.urls ∪ us.toFinset } := by
  intro us
  induction us with
  | nil =>
    intro fuel st acc _ hst hdrop _ _
    rw [parseFallbackBytesGo_end C hA fuel st acc hst
      (by simpa [bareLocsBytes] using hdrop)]
    simp [List.toFinset_nil]
  | cons u rest ih =>
    intro fuel st acc hf hst hdrop hP hg
    cases fuel with
    | zero => omega
    | succ fuel =>
      obtain ⟨hu1, hu2, hu3⟩ := hg u (List.mem_cons_self u rest)
      have hsplit : C.drop st = [] ++ (asciiBytes "<loc>" ++
          (u ++ (asciiBytes "</loc>" ++ bareLocsBytes rest))) := by
        rw [hdrop]
        simp [bareLocsBytes, List.append_assoc]
      rw [parseFallbackBytesGo_step C hA fuel st [] u (bareLocsBytes rest) acc
        hst hsplit (by decide) hu1 hu2 hu3]
      simp only [List.length_nil, Nat.add_zero]
      have hwin : containsSubB ((C.take st).drop (st - 100))
          (asciiBytes "<sitemap") = false :=
        no_smB_of_ltPB (ltPB_drop hP _)
      simp only [hwin, Bool.false_and, Bool.false_eq_true, if_false]
      have h5 : (asciiBytes "<loc>").length = 5 := by decide
      have h6 : (asciiBytes "</loc>").length = 6 := by decide
      have hlen2 : C.length - st = 11 + u.length + (bareLocsBytes rest).length := by
        have hl := congrArg List.length hsplit
        rw [List.length_drop] at hl
        simp only [List.length_append, List.length_nil] at hl
        rw [h5, h6] at hl
        omega
      have hst' : st + 5 + u.length + 6 ≤ C.length := by omega
      have hdropk : ∀ k, C.drop (st + k) = (C.drop st).drop k := by
        intro k
        rw [List.drop_drop]
      have hdrop' : C.drop (st + 5 + u.length + 6) = bareLocsBytes rest := by
        have e : st + 5 + u.length + 6 = st + (5 + (u.length + 6)) := by omega
        rw [e, hdropk, hsplit]
        simp only [List.nil_append]
        have e2 : 5 + (u.length + 6) =
            (asciiBytes "<loc>").length + (u.length + ((asciiBytes "</loc>").length + 0)) := by
          rw [h5, h6]
        rw [e2, drop_len_add, drop_len_add, drop_len_add, List.drop_zero]
      have hP' : LtFollowOkBP (C.take (st + 5 + u.length + 6)) := by
        have e : st + 5 + u.length + 6 = st + (11 + u.length) := by omega
        rw [e, List.take_add, hsplit]
        simp only [List.nil_append]
        have e2 : 11 + u.length =
            (asciiBytes "<loc>").length + (u.length + (asciiBytes "</loc>").length) := by
          rw [h5, h6]
          omega
        rw [e2, take_len_add, take_len_add, List.take_left]
        exact ltPB_append
          (ltPB_append (ltPB_append (ltFollowOkB_sound _ (by decide)) u
            (ltPB_of_not_mem hu1)) (asciiBytes "<loc>")
            (ltFollowOkB_sound _ (by decide)))
          (C.take st) hP
      rw [ih fuel _ _ (by simpa using Nat.lt_of_succ_lt_succ hf) hst' hdrop' hP'
        (fun v hv => hg v (List.mem_cons_of_mem u hv))]
      congr 1
      rw [List.toFinset_cons, Finset.insert_union, Finset.union_insert]

/-- Bare `<loc>…</loc>` blocks of ASCII values: the byte scanner extracts
every value, with no panic. -/
theorem parse_fallback_bytes_bareLocs (us : List (List Nat))
    (hg : ∀ u ∈ us, (∀ b ∈ u, b < 128) ∧ 60 ∉ u ∧ trimBytes u = u ∧ u ≠ []) :
    parse_fallback_bytes (bareLocsBytes us) = some ⟨us.toFinset, []⟩ := by
  have hA : ∀ b ∈ bareLocsBytes us, b < 128 :=
    bareLocsBytes_ascii us (fun u hu => (hg u hu).1)
  unfold parse_fallback_bytes
  rw [parseFallbackBytesGo_bareLocs (bareLocsBytes us) hA us _ 0 ⟨∅, []⟩
    (Nat.lt_succ_of_le (bareLocsBytes_len us)) (Nat.zero_le _) rfl ltPB_nil
    (fun u hu => (hg u hu).2)]
  simp

/-- A single ASCII `<loc>u</loc>` match after `<loc>`-free ASCII junk:
classified by the window of the last ≤ 100 *bytes* before the match. -/
theorem parse_fallback_bytes_single (junk u : List Nat)
    (hjA : ∀ b ∈ junk, b < 128) (huA : ∀ b ∈ u, b < 128)
    (hnc : containsSubB junk (asciiBytes "<loc>") = false)
    (hu : 60 ∉ u) (htu : trimBytes u = u) (hne : u ≠ []) :
    parse_fallback_bytes (junk ++ (asciiBytes "<loc>" ++ (u ++ asciiBytes "</loc>"))) =
      some (if containsSubB (junk.drop (junk.length - 100)) (asciiBytes "<sitemap") = true ∧
            containsSubB (junk.drop (junk.length - 100)) (asciiBytes "</sitemap>") = false then
          ⟨∅, [u]⟩ else ⟨{u}, []⟩) := by
  have hA : ∀ b ∈ junk ++ (asciiBytes "<loc>" ++ (u ++ asciiBytes "</loc>")), b < 128 := by
    intro b hb
    rcases List.mem_append.mp hb with h1 | h2
    · exact hjA b h1
    · rcases List.mem_append.mp h2 with h3 | h4
      · exact (by decide : ∀ x ∈ asciiBytes "<loc>", x < 128) b h3
      · rcases List.mem_append.mp h4 with h5 | h6
        · exact huA b h5
        · exact (by decide : ∀ x ∈ asciiBytes "</loc>", x < 128) b h6
  have h5 : (asciiBytes "<loc>").length = 5 := by decide
  have h6 : (asciiBytes "</loc>").length = 6 := by decide
  have hlen : (junk ++ (asciiBytes "<loc>" ++ (u ++ asciiBytes "</loc>"))).length =
      junk.length + 5 + u.length + 6 := by
    simp only [List.length_append]
    rw [h5, h6]
    omega
  unfold parse_fallback_bytes
  rw [parseFallbackBytesGo_step
    (junk ++ (asciiBytes "<loc>" ++ (u ++ asciiBytes "</loc>"))) hA
    (junk ++ (asciiBytes "<loc>" ++ (u ++ asciiBytes "</loc>"))).length 0
    junk u [] ⟨∅, []⟩ (Nat.zero_le _) (by simp) hnc hu htu hne]
  simp only [Nat.zero_add]
  rw [parseFallbackBytesGo_end _ hA _ _ _ (le_of_eq hlen.symm)
    (by rw [← hlen]; exact List.drop_length _)]
  rw [List.take_left]
  by_cases hA2 : containsSubB (junk.drop (junk.length - 100)) (asciiBytes "<sitemap") = true
  · by_cases hB2 : containsSubB (junk.drop (junk.length - 100)) (asciiBytes "</sitemap>") = false
    · simp [hA2, hB2]
    · have hB' : containsSubB (junk.drop (junk.length - 100)) (asciiBytes "</sitemap>") = true := by
        cases hX : containsSubB (junk.drop (junk.length - 100)) (asciiBytes "</sitemap>") with
        | true => rfl
        | false => exact absurd hX hB2
      simp [hA2, hB']
  · have hA' : containsSubB (junk.drop (junk.length - 100)) (asciiBytes "<sitemap") = false := by
      cases hX : containsSubB (junk.drop (junk.length - 100)) (asciiBytes "<sitemap") with
      | false => rfl
      | true => exact absurd hX hA2
    simp [hA']

/-- **C8 (amended).**  The lenient fallback, with the look-behind window
measured in *bytes* as the source does: (1) the decoder consults the
fallback scanner exactly when the structured pass yields an empty result
(both components empty); (2) on all-ASCII input no slice panics:
non-well-formed input consisting only of bare `<loc>…</loc>` pairs (values
free of `<`, nonempty, whitespace-free) yields every contained value, as
content URLs; (3) a single ASCII `<loc>u</loc>` match preceded by arbitrary
ASCII text free of `<loc>` is classified by the 100 *bytes* immediately
preceding the match: a window containing `<sitemap` but not `</sitemap>`
makes it a nested sitemap reference, anything else a content URL.  (On
input with a multi-byte character the window slice can fall off a character
boundary and panic, so the extraction guarantee does not extend to all
input: see the counterexample.) -/
theorem fallback_scanner_bytes_spec :
    (∀ (events : List XmlEvent) (content base : String),
      (structuredParse events base).urls = ∅ →
      (structuredParse events base).nested_sitemaps = [] →
      parse_sitemap_xml events content base =
        parse_fallback content base (structuredParse events base)) ∧
    (∀ us : List (List Nat),
      (∀ u ∈ us, (∀ b ∈ u, b < 128) ∧ 60 ∉ u ∧ trimBytes u = u ∧ u ≠ []) →
      parse_fallback_bytes (bareLocsBytes us) = some ⟨us.toFinset, []⟩) ∧
    (∀ junk u : List Nat, (∀ b ∈ junk, b < 128) → (∀ b ∈ u, b < 128) →
      containsSubB junk (asciiBytes "<loc>") = false →
      60 ∉ u → trimBytes u = u → u ≠ [] →
      parse_fallback_bytes (junk ++ (asciiBytes "<loc>" ++ (u ++ asciiBytes "</loc>"))) =
        some (if containsSubB (junk.drop (junk.length - 100)) (asciiBytes "<sitemap") = true ∧
              containsSubB (junk.drop (junk.length - 100)) (asciiBytes "</sitemap>") = false then
            ⟨∅, [u]⟩ else ⟨{u}, []⟩)) := by
  refine ⟨?_, ?_, ?_⟩
  · intro events content base h1 h2
    unfold parse_sitemap_xml
    rw [if_pos ⟨h1, h2⟩]
  · exact parse_fallback_bytes_bareLocs
  · exact parse_fallback_bytes_single

/-- Witness for C8 (amended) at concrete byte inputs: two bare loc blocks
(`hi`, `x`) yield both values; a `<sitemap>` opener in the window makes the
match a nested reference. -/
theorem fallback_scanner_bytes_spec_witness :
    parse_fallback_bytes (bareLocsBytes [[104, 105], [120]]) =
      some ⟨[[104, 105], [120]].toFinset, []⟩ ∧
    parse_fallback_bytes (asciiBytes "<sitemap>" ++
        (asciiBytes "<loc>" ++ ([120] ++ asciiBytes "</loc>"))) =
      some ⟨∅, [[120]]⟩ := by
  constructor
  · exact fallback_scanner_bytes_spec.2.1 [[104, 105], [120]] (by decide)
  · have h := fallback_scanner_bytes_spec.2.2 (asciiBytes "<sitemap>") [120]
      (by decide) (by decide) (by decide) (by decide) (by decide) (by decide)
    rw [h, if_pos ⟨by decide, by decide⟩]

/-- The UTF-8 bytes of `<loc>é` + 93 `a`s + `</loc><loc>x</loc>`: two bare
`<loc>…</loc>` blocks whose first value starts with the two-byte character
`é` (`0xC3 0xA9`), sized so the second match's window start lands at byte
offset 6 — inside `é`. -/
def c8FailingInput : List Nat :=
  bareLocsBytes [[195, 169] ++ List.replicate 93 97, [120]]

/-- The quick_xml events of that document: bare `<loc>` elements with no
`url`/`sitemap` ancestor, so the structured pass produces nothing. -/
def c8FailingEvents : List XmlEvent :=
  [.startTag "loc", .text (String.mk ('é' :: List.replicate 93 'a')), .endTag "loc",
   .startTag "loc", .text "x", .endTag "loc"]

set_option maxRecDepth 8000 in
/-- **C8 (counterexample).**  Inside the claim's own domain — input
consisting only of bare `<loc>…</loc>` pairs, on which the structured pass
is empty so the fallback runs — the scanner does *not* yield every
contained URL: with a two-byte character in the first value, the second
match's look-behind slice `&content[6..106]` starts inside `é` and the code
panics (the byte model returns `none`) instead of extracting both URLs. -/
theorem fallback_scanner_bytes_counterexample :
    (structuredParse c8FailingEvents "https://example.com").urls = ∅ ∧
    (structuredParse c8FailingEvents "https://example.com").nested_sitemaps = [] ∧
    c8FailingInput = bareLocsBytes [[195, 169] ++ List.replicate 93 97, [120]] ∧
    (∀ u ∈ [([195, 169] ++ List.replicate 93 97 : List Nat), [120]],
      60 ∉ u ∧ trimBytes u = u ∧ u ≠ []) ∧
    parse_fallback_bytes c8FailingInput = none := by
  refine ⟨by decide, by decide, rfl, by decide, by decide⟩

/-! ## The traversal engine (`src/parser.rs`)

The asynchronous fetch-and-join traversal is modelled as a pure recursion
over a fetch oracle.  `join_all` merges its children's results in list
order, which is exactly the fold below; concurrency affects only wall-clock
time, not the merged values, and is out of the model's scope (as are
`max_concurrent` and `request_timeout`, which configure the HTTP transport
and the multi-site semaphore only).

* The oracle returns, for a fetched URL, the body text together with its
  quick_xml event stream (both produced by external crates — the HTTP
  transport and the quick_xml lexer), or `none` for any fetch failure
  (connection error, non-2xx status, timeout, body-read failure).
* Error values carry the failing URL; the human-readable message text
  around it (`fetch_url`'s formatted errors) is abstracted.
* Each traversal result `(urls, request_count, trace)` additionally records
  the `trace` of URLs actually fetched in the subtree, in sequentialised
  order — instrumentation needed to state the claims about which fetches
  happen; the Rust code returns only `(urls, request_count)`.
* `parse_time` (wall-clock seconds) is not modelled. -/

/-- Configuration fields of `RustSitemapParser` that the traversal logic
reads. -/
structure Cfg where
  max_sitemaps : Nat
  max_depth : Nat
  max_nested_per_level : Nat

/-- The fetch oracle (HTTP transport plus quick_xml lexing). -/
def FetchOracle : Type := String → Option (List XmlEvent × String)

/-- The child-merging loop of `fetch_and_process_single_sitemap`
(lines 226–236): `Ok` children extend the URL set and add their request
counts (and, in the model, their fetch traces); `Err` children are only
logged. -/
def mergeChildResults (init : Finset String × Nat × List String)
    (rs : List (Except String (Finset String × Nat × List String))) :
    Finset String × Nat × List String :=
  rs.foldl (fun acc r =>
    match r with
    | .ok (u2, r2, t2) => (acc.1 ∪ u2, acc.2.1 + r2, acc.2.2 ++ t2)
    | .error _ => acc) init

/-- `fetch_and_process_single_sitemap` (`src/parser.rs` lines 188–241): at
depth 0 return empty without fetching; otherwise fetch (propagating fetch
failure as `Err`), decode, and — when nested sitemaps were found and depth
exceeds 1 — recurse concurrently on the first `max_nested_per_level` of
them at depth − 1, merging `Ok` children. -/
def fetch_and_process_single_sitemap (fetch : FetchOracle) (cfg : Cfg)
    (base : String) : Nat → String →
    Except String (Finset String × Nat × List String)
  | 0, _ => .ok (∅, 0, [])
  | d + 1, url =>
    match fetch url with
    | none => .error url
    | some (events, content) =>
      if (parse_sitemap_xml events content base).nested_sitemaps ≠ [] ∧ d ≥ 1 then
        .ok (mergeChildResults
          ((parse_sitemap_xml events content base).urls, 1, [url])
          (((parse_sitemap_xml events content base).nested_sitemaps.take
              cfg.max_nested_per_level).map
            (fun nu => fetch_and_process_single_sitemap fetch cfg base d nu)))
      else .ok ((parse_sitemap_xml events content base).urls, 1, [url])

/-- `process_sitemap` (`src/parser.rs` lines 129–186): the traversal variant
that consults a visited set — *not called by `parse_site`*.  A URL already
visited (or exhausted depth) returns empty with no fetch; otherwise the URL
is inserted into the visited set, nested sitemaps not yet visited are
processed (through `fetch_and_process_single_sitemap`, which itself tracks
no visited state).  The visited set is mutated through a `&mut` borrow in
Rust; the model returns only the result triple. -/
def process_sitemap (fetch : FetchOracle) (cfg : Cfg) (base : String)
    (visited : Finset String) (max_depth : Nat) (url : String) :
    Except String (Finset String × Nat × List String) :=
  if url ∈ visited ∨ max_depth = 0 then .ok (∅, 0, [])
  else
    match fetch url with
    | none => .error url
    | some (events, content) =>
      if (parse_sitemap_xml events content base).nested_sitemaps ≠ [] ∧
          max_depth > 1 then
        .ok (mergeChildResults
          ((parse_sitemap_xml events content base).urls, 1, [url])
          ((((parse_sitemap_xml events content base).nested_sitemaps.filter
              (fun nu => nu ∉ insert url visited)).take
              cfg.max_nested_per_level).map
            (fun nu => fetch_and_process_single_sitemap fetch cfg base
              (max_depth - 1) nu)))
      else .ok ((parse_sitemap_xml events content base).urls, 1, [url])

/-- `ParsedSiteResult` (`src/parser.rs` lines 13–21), without the wall-clock
`parse_time` field. -/
structure ParsedSiteResult where
  base_url : String
  urls : Finset String
  sitemaps_found : List String
  errors : List String
  total_requests : Nat
  deriving DecidableEq

/-- `format!("{}/robots.txt", normalized_url.trim_end_matches('/'))`. -/
def robotsUrlOf (normalized : String) : String :=
  trimEndSlashes normalized ++ "/robots.txt"

/-- The three well-known fallback paths (lines 262–266). -/
def fallbackPaths (normalized : String) : List String :=
  [trimEndSlashes normalized ++ "/sitemap.xml",
   trimEndSlashes normalized ++ "/sitemap_index.xml",
   trimEndSlashes normalized ++ "/sitemaps.xml"]

/-- `result.sitemaps_found`: the robots directives, or the fallback paths
when there are none (lines 260–269). -/
def siteSitemapsFound (robots_content normalized : String) : List String :=
  if parse_robots_txt robots_content normalized = [] then fallbackPaths normalized
  else parse_robots_txt robots_content normalized

/-- The site-level merging loop of `parse_site` (lines 284–294): `Ok`
subtrees extend the URL set and the request count; `Err` subtrees push one
error string each. -/
def mergeSiteOutcomes
    (outs : List (Except String (Finset String × Nat × List String))) :
    Finset String × Nat × List String :=
  outs.foldl (fun acc o =>
    match o with
    | .ok (u, c, _) => (acc.1 ∪ u, acc.2.1 + c, acc.2.2)
    | .error e => (acc.1, acc.2.1, acc.2.2 ++ ["Error processing sitemap: " ++ e]))
    (∅, 0, [])

/-- `parse_site` (`src/parser.rs` lines 243–303).  `none` models the `?` on
`normalize_url` (the only error that escapes); a robots fetch failure is
recorded as a single error and ends the site's processing with whatever was
accumulated (nothing); otherwise the first `max_sitemaps` discovered
sitemaps are processed at full depth and merged. -/
def parse_site (fetch : FetchOracle) (cfg : Cfg) (base_url : String) :
    Option ParsedSiteResult :=
  match normalize_url base_url with
  | none => none
  | some normalized =>
    match fetch (robotsUrlOf normalized) with
    | none =>
      some { base_url := base_url, urls := ∅, sitemaps_found := [],
             errors := ["Could not fetch robots.txt from " ++ robotsUrlOf normalized],
             total_requests := 0 }
    | some (_, robots_content) =>
      match mergeSiteOutcomes
          (((siteSitemapsFound robots_content normalized).take
            cfg.max_sitemaps).map
            (fun u => fetch_and_process_single_sitemap fetch cfg normalized
              cfg.max_depth u)) with
      | (us, reqs, errs) =>
        some { base_url := base_url, urls := us,
               sitemaps_found := siteSitemapsFound robots_content normalized,
               errors := errs, total_requests := 1 + reqs }

/-! ### Characterisation of the merging folds -/

/-- The request count an outcome contributes to the site total. -/
def reqOf : Except String (Finset String × Nat × List String) → Nat
  | .ok (_, c, _) => c
  | .error _ => 0

/-- The URLs an outcome contributes. -/
def urlsOf : Except String (Finset String × Nat × List String) → Finset String
  | .ok (u, _, _) => u
  | .error _ => ∅

/-- The error entry an outcome contributes (`none` for successes). -/
def errOf : Except String (Finset String × Nat × List String) → Option String
  | .ok _ => none
  | .error e => some ("Error processing sitemap: " ++ e)

/-- The number of fetches recorded in an outcome's trace. -/
def traceLenOf : Except String (Finset String × Nat × List String) → Nat
  | .ok (_, _, t) => t.length
  | .error _ => 0

/-- The union of the URLs of a list of outcomes. -/
def outcomesUrls
    (outs : List (Except String (Finset String × Nat × List String))) :
    Finset String :=
  (outs.map urlsOf).foldr (· ∪ ·) ∅

theorem mergeSiteOutcomes_fold
    (outs : List (Except String (Finset String × Nat × List String)))
    (acc : Finset String × Nat × List String) :
    outs.foldl (fun acc o =>
      match o with
      | .ok (u, c, _) => (acc.1 ∪ u, acc.2.1 + c, acc.2.2)
      | .error e => (acc.1, acc.2.1, acc.2.2 ++ ["Error processing sitemap: " ++ e]))
      acc
    = (acc.1 ∪ outcomesUrls outs, acc.2.1 + (outs.map reqOf).sum,
       acc.2.2 ++ outs.filterMap errOf) := by
  induction outs generalizing acc with
  | nil => simp [outcomesUrls]
  | cons o rest ih =>
    cases o with
    | ok v =>
      obtain ⟨u, c, t⟩ := v
      rw [List.foldl_cons]
      dsimp only
      rw [ih]
      simp [outcomesUrls, urlsOf, reqOf, errOf, Finset.union_assoc, Nat.add_assoc]
    | error e =>
      rw [List.foldl_cons]
      dsimp only
      rw [ih]
      simp [outcomesUrls, urlsOf, reqOf, errOf, List.append_assoc]

/-- `mergeSiteOutcomes` componentwise: URL union, request-count sum over `Ok`
outcomes, one error entry per `Err` outcome, in order. -/
theorem mergeSiteOutcomes_spec
    (outs : List (Except String (Finset String × Nat × List String))) :
    mergeSiteOutcomes outs =
      (outcomesUrls outs, (outs.map reqOf).sum, outs.filterMap errOf) := by
  unfold mergeSiteOutcomes
  rw [mergeSiteOutcomes_fold]
  simp

theorem mergeChildResults_reqs
    (rs : List (Except String (Finset String × Nat × List String))) :
    ∀ init : Finset String × Nat × List String,
      init.2.1 = init.2.2.length →
      (∀ r ∈ rs, ∀ u c t, r = .ok (u, c, t) → c = t.length) →
      (mergeChildResults init rs).2.1 = (mergeChildResults init rs).2.2.length := by
  induction rs with
  | nil => intro init hi _; exact hi
  | cons r rest ih =>
    intro init hi hr
    cases r with
    | ok v =>
      obtain ⟨u2, r2, t2⟩ := v
      have hstep : mergeChildResults init (.ok (u2, r2, t2) :: rest) =
          mergeChildResults (init.1 ∪ u2, init.2.1 + r2, init.2.2 ++ t2) rest := rfl
      rw [hstep]
      refine ih _ ?_ (fun r hm => hr r (List.mem_cons_of_mem _ hm))
      have hc : r2 = t2.length :=
        hr _ (List.mem_cons_self _ _) u2 r2 t2 rfl
      simp [hi, hc]
    | error e =>
      have hstep : mergeChildResults init (.error e :: rest) =
          mergeChildResults init rest := rfl
      rw [hstep]
      exact ih _ hi (fun r hm => hr r (List.mem_cons_of_mem _ hm))

/-- In every successful traversal outcome, the request count equals the
number of fetches recorded in the trace: the counter counts exactly the
successful fetches of the subtree (failed subtrees propagate `Err` and are
dropped by the caller). -/
theorem fap_reqs_eq_trace (fetch : FetchOracle) (cfg : Cfg) (base : String) :
    ∀ (d : Nat) (url : String) (u : Finset String) (c : Nat) (t : List String),
      fetch_and_process_single_sitemap fetch cfg base d url = .ok (u, c, t) →
      c = t.length := by
  intro d
  induction d with
  | zero =>
    intro url u c t h
    rw [fetch_and_process_single_sitemap] at h
    simp only [Except.ok.injEq, Prod.mk.injEq] at h
    rw [← h.2.1, ← h.2.2]
    rfl
  | succ d ih =>
    intro url u c t h
    rw [fetch_and_process_single_sitemap] at h
    cases hf : fetch url with
    | none => rw [hf] at h; cases h
    | some p =>
      obtain ⟨events, content⟩ := p
      rw [hf] at h
      dsimp only at h
      split at h
      · simp only [Except.ok.injEq] at h
        have h2 := congrArg (fun p => p.2.1) h
        have h3 := congrArg (fun p => p.2.2) h
        dsimp only at h2 h3
        rw [← h2, ← h3]
        apply mergeChildResults_reqs _ _ rfl
        intro r hm u2 c2 t2 hr2
        obtain ⟨nu, _, hnu⟩ := List.mem_map.mp hm
        exact ih nu u2 c2 t2 (by rw [hnu, hr2])
      · simp only [Except.ok.injEq, Prod.mk.injEq] at h
        rw [← h.2.1, ← h.2.2]
        rfl

/-- `parse_site` when the robots fetch fails: one site-level error, nothing
else (lines 296–298). -/
theorem parse_site_robots_err (fetch : FetchOracle) (cfg : Cfg)
    (base_url n : String) (hn : normalize_url base_url = some n)
    (hfr : fetch (robotsUrlOf n) = none) :
    parse_site fetch cfg base_url =
      some { base_url := base_url, urls := ∅, sitemaps_found := [],
             errors := ["Could not fetch robots.txt from " ++ robotsUrlOf n],
             total_requests := 0 } := by
  unfold parse_site
  rw [hn]
  dsimp only
  rw [hfr]

/-- `parse_site` when the robots fetch succeeds, with the merged outcome
spelled out componentwise. -/
theorem parse_site_robots_ok (fetch : FetchOracle) (cfg : Cfg)
    (base_url n : String) (ev : List XmlEvent) (c : String)
    (hn : normalize_url base_url = some n)
    (hfr : fetch (robotsUrlOf n) = some (ev, c)) :
    parse_site fetch cfg base_url =
      some { base_url := base_url,
             urls := outcomesUrls
               (((siteSitemapsFound c n).take cfg.max_sitemaps).map
                 (fun u => fetch_and_process_single_sitemap fetch cfg n
                   cfg.max_depth u)),
             sitemaps_found := siteSitemapsFound c n,
             errors := (((siteSitemapsFound c n).take cfg.max_sitemaps).map
               (fun u => fetch_and_process_single_sitemap fetch cfg n
                 cfg.max_depth u)).filterMap errOf,
             total_requests := 1 +
               ((((siteSitemapsFound c n).take cfg.max_sitemaps).map
                 (fun u => fetch_and_process_single_sitemap fetch cfg n
                   cfg.max_depth u)).map reqOf).sum } := by
  unfold parse_site
  rw [hn]
  dsimp only
  rw [hfr]
  dsimp only
  rw [mergeSiteOutcomes_spec]

theorem reqOf_eq_traceLenOf
    (o : Except String (Finset String × Nat × List String))
    (h : ∀ u c t, o = .ok (u, c, t) → c = t.length) :
    reqOf o = traceLenOf o := by
  cases o with
  | ok v =>
    obtain ⟨u, c, t⟩ := v
    exact h u c t rfl
  | error e => rfl

/-- **C2 (amended).**  `total_requests` counts only *successful* fetches,
and only those in subtrees that complete without error: (1) in every
successful traversal outcome the request count equals the number of fetches
in its trace; (2) when the robots fetch fails it is not counted
(`total_requests = 0`); (3) when the robots fetch succeeds,
`total_requests` is 1 (for robots) plus, for each processed top-level
sitemap whose subtree returned `Ok`, the number of fetches in that subtree
— failed fetch attempts and subtrees that end in `Err` contribute
nothing. -/
theorem total_requests_counts_successful_fetches (fetch : FetchOracle)
    (cfg : Cfg) :
    (∀ (base : String) (d : Nat) (url : String) (u : Finset String) (c : Nat)
      (t : List String),
      fetch_and_process_single_sitemap fetch cfg base d url = .ok (u, c, t) →
      c = t.length) ∧
    (∀ base_url n, normalize_url base_url = some n →
      fetch (robotsUrlOf n) = none →
      ∀ r, parse_site fetch cfg base_url = some r → r.total_requests = 0) ∧
    (∀ base_url n ev c, normalize_url base_url = some n →
      fetch (robotsUrlOf n) = some (ev, c) →
      ∀ r, parse_site fetch cfg base_url = some r →
        r.total_requests = 1 +
          (((siteSitemapsFound c n).take cfg.max_sitemaps).map
            (fun u => traceLenOf (fetch_and_process_single_sitemap fetch cfg n
              cfg.max_depth u))).sum) := by
  refine ⟨fun base => fap_reqs_eq_trace fetch cfg base, ?_, ?_⟩
  · intro base_url n hn hfr r hr
    rw [parse_site_robots_err fetch cfg base_url n hn hfr,
      Option.some.injEq] at hr
    rw [← hr]
  · intro base_url n ev c hn hfr r hr
    rw [parse_site_robots_ok fetch cfg base_url n ev c hn hfr,
      Option.some.injEq] at hr
    rw [← hr]
    show 1 + _ = 1 + _
    congr 1
    rw [List.map_map]
    congr 1
    apply List.map_congr_left
    intro u _
    exact reqOf_eq_traceLenOf _
      (fun u2 c2 t2 h2 => fap_reqs_eq_trace fetch cfg n cfg.max_depth u u2 c2 t2 h2)

/-- The fetch oracle of the specification's end-to-end scenario: robots.txt
succeeds with no `Sitemap:` directive, `/sitemap.xml` is a 2-URL urlset, and
the other two fallback paths 404. -/
def fetchC2 : FetchOracle := fun url =>
  if url = "https://example.com/robots.txt" then some ([], "User-agent: *")
  else if url = "https://example.com/sitemap.xml" then
    some (urlsetEvents [[UrlItem.locItem "https://example.com/a"],
                        [UrlItem.locItem "https://example.com/b"]],
      "<urlset><url><loc>https://example.com/a</loc></url><url><loc>https://example.com/b</loc></url></urlset>")
  else none

/-- **C2 (counterexample).**  In the claim's own end-to-end scenario the
code yields `total_requests = 2` (robots + the one successful sitemap
fetch), not 4: the two 404 fallback attempts make their subtrees return
`Err`, whose request counts `parse_site` drops (it only pushes an error
string), and a failed robots fetch is likewise never counted. -/
theorem total_requests_end_to_end_counterexample :
    (parse_site fetchC2 ⟨10, 2, 5⟩ "https://example.com").map
      (fun r => (r.total_requests, r.errors.length, r.urls.card)) =
      some (2, 2, 2) := by
  decide

/-- Witness for C2 (amended) at the end-to-end scenario: the formula of the
amended claim evaluates to 2 there. -/
theorem total_requests_counts_witness :
    (parse_site fetchC2 ⟨10, 2, 5⟩ "https://example.com").map
      ParsedSiteResult.total_requests = some 2 := by
  cases hp : parse_site fetchC2 ⟨10, 2, 5⟩ "https://example.com" with
  | none => exact absurd hp (by decide)
  | some r =>
    have h := (total_requests_counts_successful_fetches fetchC2 ⟨10, 2, 5⟩).2.2
      "https://example.com" "https://example.com/" [] "User-agent: *"
      (by decide) (by decide) r hp
    rw [Option.map_some', h]
    decide

instance {ε α : Type} [DecidableEq ε] [DecidableEq α] :
    DecidableEq (Except ε α)
  | .error e, .error f => decidable_of_iff (e = f) (by simp)
  | .error _, .ok _ => isFalse (by simp)
  | .ok _, .error _ => isFalse (by simp)
  | .ok x, .ok y => decidable_of_iff (x = y) (by simp)

/-- A sitemap graph in which `c.xml` is referenced from two sibling index
branches `a.xml` and `b.xml`. -/
def fetchC3 : FetchOracle := fun url =>
  if url = "https://example.com/robots.txt" then some ([], "Sitemap: /sitemap.xml")
  else if url = "https://example.com/sitemap.xml" then
    some (indexEvents ["https://example.com/a.xml", "https://example.com/b.xml"], "")
  else if url = "https://example.com/a.xml" then
    some (indexEvents ["https://example.com/c.xml"], "")
  else if url = "https://example.com/b.xml" then
    some (indexEvents ["https://example.com/c.xml"], "")
  else if url = "https://example.com/c.xml" then
    some (urlsetEvents [[UrlItem.locItem "https://example.com/page"]], "")
  else none

/-- **C3 (counterexample).**  `parse_site`'s call path
(`fetch_and_process_single_sitemap`) tracks no visited set: with `c.xml`
reachable via the sibling branches `a.xml` and `b.xml` (depth 3), the fetch
trace of the very traversal `parse_site` launches contains `c.xml` twice,
and the site total counts six fetches (robots + 5), not five. -/
theorem no_visited_set_counterexample :
    fetch_and_process_single_sitemap fetchC3 ⟨10, 3, 5⟩ "https://example.com/" 3
        "https://example.com/sitemap.xml" =
      .ok ({"https://example.com/page"}, 5,
        ["https://example.com/sitemap.xml", "https://example.com/a.xml",
         "https://example.com/c.xml", "https://example.com/b.xml",
         "https://example.com/c.xml"]) ∧
    (["https://example.com/sitemap.xml", "https://example.com/a.xml",
      "https://example.com/c.xml", "https://example.com/b.xml",
      "https://example.com/c.xml"].count "https://example.com/c.xml") = 2 ∧
    (parse_site fetchC3 ⟨10, 3, 5⟩ "https://example.com").map
      (fun r => (r.total_requests, r.sitemaps_found)) =
      some (6, ["https://example.com/sitemap.xml"]) := by
  refine ⟨by decide, by decide, by decide⟩

/-- **C3 (amended).**  Only the visited-tracking variant `process_sitemap`
— which `parse_site`'s call path never invokes — suppresses refetching: a
sitemap URL already in the visited set (or an exhausted depth budget)
returns the empty result with no fetch performed and no request counted. -/
theorem process_sitemap_visited_skip (fetch : FetchOracle) (cfg : Cfg)
    (base : String) (visited : Finset String) (d : Nat) (url : String)
    (h : url ∈ visited ∨ d = 0) :
    process_sitemap fetch cfg base visited d url = .ok (∅, 0, []) := by
  unfold process_sitemap
  rw [if_pos h]

/-- Witness for C3 (amended): a URL already visited is skipped even though
every fetch would fail. -/
theorem process_sitemap_visited_skip_witness :
    process_sitemap (fun _ => none) ⟨10, 2, 5⟩ "https://example.com/"
      {"https://example.com/s.xml"} 2 "https://example.com/s.xml" =
      .ok (∅, 0, []) :=
  process_sitemap_visited_skip _ _ _ _ _ _ (Or.inl (by decide))

/-- **C4.**  `parse_site` returns a result rather than raising for ordinary
fetch/parse failures: whenever the base URL normalizes, the call returns
`some` result; a robots fetch failure is the only failure ending the site's
processing, recorded as a single error string with nothing else accumulated;
on a successful robots fetch the three fallback paths are substituted
exactly when zero directives were found, and each per-sitemap subtree
failure contributes one error entry (in order) without affecting the sibling
subtrees' URLs, which are all merged. -/
theorem parse_site_error_handling (fetch : FetchOracle) (cfg : Cfg)
    (base_url n : String) (hn : normalize_url base_url = some n) :
    (parse_site fetch cfg base_url).isSome = true ∧
    (fetch (robotsUrlOf n) = none →
      parse_site fetch cfg base_url =
        some { base_url := base_url, urls := ∅, sitemaps_found := [],
               errors := ["Could not fetch robots.txt from " ++ robotsUrlOf n],
               total_requests := 0 }) ∧
    (∀ ev c, fetch (robotsUrlOf n) = some (ev, c) →
      ∀ r, parse_site fetch cfg base_url = some r →
        r.sitemaps_found = (if parse_robots_txt c n = [] then fallbackPaths n
          else parse_robots_txt c n) ∧
        r.errors = (((siteSitemapsFound c n).take cfg.max_sitemaps).map
          (fun u => fetch_and_process_single_sitemap fetch cfg n
            cfg.max_depth u)).filterMap errOf ∧
        r.urls = outcomesUrls (((siteSitemapsFound c n).take cfg.max_sitemaps).map
          (fun u => fetch_and_process_single_sitemap fetch cfg n
            cfg.max_depth u))) := by
  refine ⟨?_, ?_, ?_⟩
  · cases hfr : fetch (robotsUrlOf n) with
    | none => rw [parse_site_robots_err fetch cfg base_url n hn hfr]; rfl
    | some p =>
      obtain ⟨ev, c⟩ := p
      rw [parse_site_robots_ok fetch cfg base_url n ev c hn hfr]
      rfl
  · intro hfr
    exact parse_site_robots_err fetch cfg base_url n hn hfr
  · intro ev c hfr r hr
    rw [parse_site_robots_ok fetch cfg base_url n ev c hn hfr,
      Option.some.injEq] at hr
    rw [← hr]
    exact ⟨rfl, rfl, rfl⟩

/-- Witness for C4: a transport where every fetch fails still yields a
result, carrying exactly the robots error. -/
theorem parse_site_error_handling_witness :
    parse_site (fun _ => none) ⟨10, 2, 5⟩ "https://example.com" =
      some { base_url := "https://example.com", urls := ∅, sitemaps_found := [],
             errors := ["Could not fetch robots.txt from https://example.com/robots.txt"],
             total_requests := 0 } := by
  have h := (parse_site_error_handling (fun _ => none) ⟨10, 2, 5⟩
    "https://example.com" "https://example.com/" (by decide)).2.1 rfl
  rw [h]
  decide

end SitemapParser
